import Mathlib

/-!
Verification of the reactive form-validation engine.

This file gives a shallow embedding of the engine's core source files:

* `src/utils/nested.ts`   — path utilities (`getNestedValue`, `resolveWildcard`,
  `expandWildcardPaths`);
* `src/utils/deep.ts`     — `deepEqual` / `deepClone`;
* `src/utils/debounce.ts` — the debounced cancellable caller;
* `src/validation/manager.ts` — the `ValidationManager` class
  (`validateField`, `validateForm`, `validateDependentFields`,
  `getDependentFields`, caches and abort tokens);
* `src/validation/state.ts` — `FormStateManager.isValid` and
  `isConditionallyInactive`;
* `src/rules/advanced.ts` / `src/rules/basic.ts` — the concrete rules used by
  the theorems (`requiredIf`, `minLength`, `remote`).

Modelling conventions:

* JavaScript values are the inductive `Value`; `undefined` is `Value.vUndef`
  and `null` is `Value.vNull`.  Binary file values carry their metadata and an
  identity tag; date values carry their instant.
* A field path is its list of dot-separated segments (`List String`), in
  bijection with the dot-joined strings used by the source for segments not
  containing a dot.  The source's `key.includes('.')` test is `1 < p.length`,
  its `p === '*'` segment test is `p = "*"`, and its character-level
  `key.includes('*')` test is `pathHasStar`.
* JavaScript objects used as string-keyed dictionaries (the error map, the
  validating map, the rule table, the validation cache, the touched map) are
  association lists with JS assignment semantics (`SMap`): assigning to an
  existing key overwrites in place, assigning to a fresh key appends.
* A thrown JS exception is modelled by the error message the engine's
  `catch` blocks derive from it (`err instanceof Error ? err.message :
  'Validation error'`), i.e. rules fail with `Except.error msg`.
* An `AbortController` is a numeric token; `abort()` adds the token to the
  set of aborted tokens, and `signal.aborted` is membership in that set.
* The engine is single-threaded and cooperative.  `validateFieldSeq` runs one
  `validateField` call to completion with no interleaving (every `await`
  resumes against an unchanged state).  `validateFieldStart` /
  `validateFieldResume` split a run at its first `await`, so that another
  call can be interleaved in between; this models the supersession scenario.
* The wildcard matcher `matchesWildcard` implements the source's generated
  regular expression (`'*'` segments become `\\d+`, other segments are matched
  literally) as a segment-wise matcher; this is exact for literal segments
  that contain no regex metacharacters, which is the only way the engine
  builds patterns.
-/

/-! ## JavaScript values -/

inductive Value where
  | vUndef
  | vNull
  | vStr (s : String)
  | vInt (n : Int)
  | vBool (b : Bool)
  | vArr (items : List Value)
  | vObj (fields : List (String × Value))
  | vFile (name : String) (size : Nat) (lastModified : Nat) (ident : Nat)
  | vDate (instant : Int)
deriving Repr

/-- JavaScript falsiness (`!v`): `undefined`, `null`, `''`, `0`, `false`. -/
def Value.isFalsy : Value → Bool
  | .vUndef => true
  | .vNull => true
  | .vStr s => s.isEmpty
  | .vInt n => n == 0
  | .vBool b => !b
  | _ => false

/-! ## deepEqual / deepClone (src/utils/deep.ts) -/

mutual
/-- `deepEqual` from `src/utils/deep.ts`: identity first, `File` by
name/size/lastModified, `Date` by instant, arrays element-wise, plain objects
by key sets, everything else by primitive equality. -/
def deepEqual : Value → Value → Bool
  | .vUndef, .vUndef => true
  | .vNull, .vNull => true
  | .vStr a, .vStr b => a == b
  | .vInt a, .vInt b => a == b
  | .vBool a, .vBool b => a == b
  | .vFile n sz lm _, .vFile n' sz' lm' _ => n == n' && sz == sz' && lm == lm'
  | .vDate t, .vDate t' => t == t'
  | .vArr xs, .vArr ys => xs.length == ys.length && deepEqualList xs ys
  | .vObj fs, .vObj gs => fs.length == gs.length && deepEqualFields fs gs
  | _, _ => false

def deepEqualList : List Value → List Value → Bool
  | [], _ => true
  | _ :: _, [] => false
  | x :: xs, y :: ys => deepEqual x y && deepEqualList xs ys

def deepEqualFields : List (String × Value) → List (String × Value) → Bool
  | [], _ => true
  | (k, v) :: fs, gs =>
      (match gs.find? (fun q => q.1 == k) with
       | some q => deepEqual v q.2
       | none => false) && deepEqualFields fs gs
end

mutual
/-- `deepClone` from `src/utils/deep.ts`: `File`/`Blob` values are returned by
reference (not cloned), dates become new instances holding the same instant,
arrays and plain objects are cloned recursively, primitives are returned. -/
def deepClone : Value → Value
  | .vFile n sz lm i => .vFile n sz lm i
  | .vDate t => .vDate t
  | .vArr xs => .vArr (deepCloneList xs)
  | .vObj fs => .vObj (deepCloneFields fs)
  | v => v

def deepCloneList : List Value → List Value
  | [] => []
  | x :: xs => deepClone x :: deepCloneList xs

def deepCloneFields : List (String × Value) → List (String × Value)
  | [] => []
  | (k, v) :: fs => (k, deepClone v) :: deepCloneFields fs
end

def nodupKeys : List (String × Value) → Bool
  | [] => true
  | (k, _) :: fs => !(fs.any (fun q => q.1 == k)) && nodupKeys fs

mutual
/-- Well-formed JS values: object key lists are duplicate-free (as in any
actual JavaScript object). -/
def wfValue : Value → Bool
  | .vArr xs => wfList xs
  | .vObj fs => nodupKeys fs && wfFields fs
  | _ => true

def wfList : List Value → Bool
  | [] => true
  | x :: xs => wfValue x && wfList xs

def wfFields : List (String × Value) → Bool
  | [] => true
  | (_, v) :: fs => wfValue v && wfFields fs
end

/-! ## Decimal index segments

JavaScript renders array indices with `index.toString()`; we model that
rendering explicitly on top of `Nat.digits` so that its injectivity (distinct
indices give distinct key segments) is provable. -/

def natToString (n : Nat) : String :=
  if n = 0 then "0" else ⟨((Nat.digits 10 n).map Nat.digitChar).reverse⟩

/-! ## Field paths and nested access (src/utils/nested.ts) -/

/-- A field path, as its list of dot-separated segments. -/
abbrev FPath := List String

/-- `key.includes('*')`: some segment of the path contains a `*` character
(`String.contains`, written over the character list so it computes). -/
def pathHasStar (p : FPath) : Bool := p.any (fun seg => seg.data.any (fun c => c == '*'))

/-- `fieldKey.includes('.')`: the path has more than one segment. -/
def pathIsNested (p : FPath) : Bool := 1 < p.length

/-- Parse a string of decimal digits; `none` unless the string is non-empty
and all digits. -/
def decStrToNat? (s : String) : Option Nat :=
  if s.isEmpty || !s.data.all Char.isDigit then none
  else some (s.data.foldl (fun acc c => acc * 10 + (c.toNat - '0'.toNat)) 0)

/-- One step of the source's `current?.[key]` reduction: property access on an
object, canonical-index access on an array, `undefined` on everything else
(including `null`/`undefined`, via the optional chaining). -/
def jsIndex : Value → String → Value
  | .vObj fs, k =>
      match fs.find? (fun q => q.1 == k) with
      | some q => q.2
      | none => .vUndef
  | .vArr xs, k =>
      match decStrToNat? k with
      | some n => if natToString n = k then (xs.getD n .vUndef) else .vUndef
      | none => .vUndef
  | _, _ => (.vUndef)

/-- `getNestedValue` from `src/utils/nested.ts`: `undefined` on an empty path
or a falsy root, else reduce with `current?.[key]` over the segments. -/
def getNestedValue (obj : Value) (path : FPath) : Value :=
  if path.isEmpty || obj.isFalsy then .vUndef
  else path.foldl jsIndex obj

/-- `resolveWildcard` from `src/utils/nested.ts`: substitute each `*` segment
with the segment at the same position of the concrete path (when that segment
exists and is non-empty, i.e. truthy). -/
def resolveWildcard (wildcardPath concretePath : FPath) : FPath :=
  if !(pathHasStar wildcardPath) then wildcardPath
  else (List.range wildcardPath.length).zip wildcardPath |>.map
    (fun iq =>
      if iq.2 = "*" then
        match concretePath.get? iq.1 with
        | some s => if s.isEmpty then iq.2 else s
        | none => iq.2
      else iq.2)

/-- One segment of the `ValidationManager.matchesWildcard` regular expression:
a `*` pattern segment becomes `\d+` (one or more digits), any other segment
matches itself literally. -/
def matchSeg (p c : String) : Bool :=
  if p = "*" then !c.isEmpty && c.data.all Char.isDigit else p == c

/-- `ValidationManager.matchesWildcard`, as a segment-wise matcher: the
anchored regex matches exactly when the paths have the same number of
segments and each pattern segment matches the concrete one. -/
def matchesWildcard (pattern concrete : FPath) : Bool :=
  pattern.length == concrete.length &&
    (pattern.zip concrete).all (fun pc => matchSeg pc.1 pc.2)

/-! ## String-keyed JS dictionaries -/

/-- A JavaScript object used as a dictionary, with insertion-order key
semantics: assigning an existing key overwrites in place, assigning a fresh
key appends; `delete` removes the key. -/
abbrev SMap (κ : Type) (α : Type) := List (κ × α)

namespace SMap

variable {κ α : Type} [DecidableEq κ]

def empty : SMap κ α := []

def get? (m : SMap κ α) (k : κ) : Option α :=
  (m.find? (fun q => q.1 == k)).map (fun q => q.2)

def set (m : SMap κ α) (k : κ) (v : α) : SMap κ α :=
  if m.any (fun q => q.1 == k) then
    m.map (fun q => if q.1 == k then (k, v) else q)
  else m ++ [(k, v)]

def erase (m : SMap κ α) (k : κ) : SMap κ α :=
  m.filter (fun q => !(q.1 == k))

def keys (m : SMap κ α) : List κ := m.map (fun q => q.1)

def values (m : SMap κ α) : List α := m.map (fun q => q.2)

def hasKey (m : SMap κ α) (k : κ) : Bool := m.any (fun q => q.1 == k)

end SMap

/-- Dot-join a path into the string key used for dependency-value records. -/
def joinPath (p : FPath) : String := String.intercalate "." p

/-- JavaScript strict equality (`===` / `!==`) restricted to the primitives
that appear as `requiredIf` condition values; non-primitive values compare by
reference in JS and a value read from the form tree is never the same
reference as a configuration constant, so they are modelled as never equal. -/
def jsStrictEq : Value → Value → Bool
  | .vUndef, .vUndef => true
  | .vNull, .vNull => true
  | .vStr a, .vStr b => a == b
  | .vInt a, .vInt b => a == b
  | .vBool a, .vBool b => a == b
  | _, _ => false

/-! ## Wildcard rule expansion (src/utils/nested.ts, expandWildcardPaths) -/

/-- Replace every `*` segment by the decimal rendering of `index`
(`parts.map(part => part === '*' ? index.toString() : part)`). -/
def substStar (parts : FPath) (index : Nat) : FPath :=
  parts.map (fun part => if part = "*" then natToString index else part)

/-- The `arrayPath` prefix computed before a wildcard: the segments before the
first literal `*` segment; when the path contains a `*` character but no
literal `*` segment, `indexOf` returns `-1` and `slice(0, -1)` drops the last
segment. -/
def starPrefix (parts : FPath) : FPath :=
  if "*" ∈ parts then parts.take (parts.indexOf "*") else parts.dropLast

/-- `expandWildcardPaths` from `src/utils/nested.ts`, generic in the type of
rule lists: wildcard patterns contribute one concrete key per index of the
array found at their prefix (sharing the pattern's rule-list value); patterns
whose prefix is absent or not an array contribute nothing; plain keys pass
through. -/
def expandWildcardPaths {ρ : Type} (rules : SMap FPath ρ) (values : Value) :
    SMap FPath ρ :=
  rules.foldl (fun expanded pr =>
    if pathHasStar pr.1 then
      match getNestedValue values (starPrefix pr.1) with
      | .vArr items =>
          (List.range items.length).foldl
            (fun m index => m.set (substStar pr.1 index) pr.2) expanded
      | _ => expanded
    else expanded.set pr.1 pr.2) SMap.empty

/-! ## Rules and the validation manager state (src/validation/manager.ts) -/

/-- The outcome of invoking a rule with `(value, allValues, meta)`: either a
synchronous result or a promise carrying its eventual settlement.  A thrown
exception / rejection is `Except.error msg` where `msg` is the message the
manager's `catch` derives from it. -/
inductive RuleExec where
  | sync (res : Except String Value)
  | async (res : Except String Value)

/-- A normalized validation rule: its callable body plus the `__crossField`
and `__requiredIf` metadata the engine attaches to cross-field rules. -/
structure VRule where
  run : Value → Value → FPath → RuleExec
  crossField : Option (List FPath) := none
  requiredIfMeta : Option (FPath × Value) := none

/-- One rule invocation, as observed by the instrumented interpreter: which
field, which position in the rule list, and the `(value, allValues)`
arguments the rule received. -/
structure RuleCall where
  fieldPath : FPath
  idx : Nat
  value : Value
  allValues : Value

/-- A `ValidationCache` entry: value snapshot, error list, and (for fields
with a dependency entry) the dependency-value snapshot; `none` models the
stored `undefined`. -/
structure CacheEntry where
  value : Value
  errors : List String
  depsValues : Option Value

/-- A `FieldDependency` record. -/
structure FieldDep where
  field : FPath
  dependsOn : List FPath

/-- The mutable state of one `ValidationManager` together with the shared
error/validating maps it was constructed over.  `abortControllers` maps a
path to its current token, `abortedToks` is the set of tokens whose
controller has been aborted, and `nextTok` supplies fresh tokens. -/
structure VMState where
  validationCache : SMap FPath CacheEntry
  errors : SMap FPath (List String)
  isValidating : SMap FPath Bool
  abortControllers : SMap FPath Nat
  abortedToks : List Nat
  nextTok : Nat
  values : Value
  rules : SMap FPath (List VRule)
  fieldDependencies : List FieldDep
  hasWildcardRules : Bool
  expandedRulesCache : Option (SMap FPath (List VRule))

/-- `resolveValidationResult`: falsy results (including the empty string)
give no errors, a string is one message, an array keeps its non-empty string
members, anything else gives no errors. -/
def resolveValidationResult (result : Value) : List String :=
  if result.isFalsy then []
  else match result with
    | .vStr s => [s]
    | .vArr rs => rs.filterMap (fun r =>
        match r with
        | .vStr s => if 0 < s.length then some s else none
        | _ => none)
    | _ => []

/-- Order-preserving deduplication, as `[...new Set(xs)]`. -/
def dedupKeepFirst : List FPath → List FPath
  | [] => []
  | x :: xs => x :: dedupKeepFirst (xs.filter (fun y => y ≠ x))
termination_by xs => xs.length
decreasing_by
  have := List.length_filter_le (fun y => y ≠ x) xs
  simp only [List.length_cons]
  omega

/-- `buildDependencies`: union the `__crossField.dependsOn` metadata of each
field's rule list, deduplicated, keeping only fields with dependencies. -/
def buildDependencies (rules : SMap FPath (List VRule)) : List FieldDep :=
  rules.foldl (fun deps pr =>
    let dependsOn := pr.2.foldl (fun acc rule =>
      match rule.crossField with
      | some ds => acc ++ ds
      | none => acc) []
    if dependsOn.isEmpty then deps
    else deps ++ [⟨pr.1, dedupKeepFirst dependsOn⟩]) []

/-- `getExpandedRules`: memoized wildcard expansion of the rule table. -/
def getExpandedRules (s : VMState) : SMap FPath (List VRule) × VMState :=
  match s.expandedRulesCache with
  | some m => (m, s)
  | none =>
      let m := expandWildcardPaths s.rules s.values
      (m, {s with expandedRulesCache := some m})

/-- `clearStaleErrors`: drop error entries for fields no longer covered by a
rule key or an expanded rule key. -/
def clearStaleErrors (s : VMState) : VMState :=
  let q := getExpandedRules s
  let s := q.2
  let activeFields := s.rules.keys ++ q.1.keys
  {s with errors := s.errors.filter (fun e => activeFields.contains e.1)}

/-- `setRules`: store the table, recompute the wildcard flag, invalidate the
expansion memo, rebuild dependencies, purge stale errors. -/
def setRulesModel (s : VMState) (r : SMap FPath (List VRule)) : VMState :=
  let s := {s with
    rules := r,
    hasWildcardRules := r.keys.any pathHasStar,
    expandedRulesCache := none}
  let s := {s with fieldDependencies := buildDependencies r}
  clearStaleErrors s

/-- `getDependentFields`: fields whose dependency set contains the changed
path (exactly, or by wildcard match); a pattern-valued dependent is expanded
to every matching key of the current expansion.  Returns the updated state
because reading the expansion can fill its memo. -/
def getDependentFields (s : VMState) (changedField : FPath) : List FPath × VMState :=
  s.fieldDependencies.foldl (fun (acc : List FPath × VMState) dep =>
    let isMatch := dep.dependsOn.any (fun d =>
      if d = changedField then true
      else if pathHasStar d then matchesWildcard d changedField
      else false)
    if !isMatch then acc
    else if pathHasStar dep.field then
      let q := getExpandedRules acc.2
      (acc.1 ++ q.1.keys.filter (fun key => matchesWildcard dep.field key), q.2)
    else (acc.1 ++ [dep.field], acc.2)) ([], s)

/-! ## FormStateManager (src/validation/state.ts) -/

/-- `FormStateManager.isConditionallyInactive`: a field is inactive iff it
has rules, at least one carries `__requiredIf` metadata, and every such
condition is currently unmet (`!==` against the condition value). -/
def isConditionallyInactive (rules : SMap FPath (List VRule)) (values : Value)
    (fieldKey : FPath) : Bool :=
  match rules.get? fieldKey with
  | none => false
  | some fieldRules =>
      let metas := fieldRules.filterMap (fun r => r.requiredIfMeta)
      if metas.isEmpty then false
      else metas.all (fun meta =>
        !(jsStrictEq (getNestedValue values meta.1) meta.2))

/-- `FormStateManager.isValid`: false while any validating flag is set, else
every error key must be conditionally inactive or have an empty list.  The
state manager's rule table is the same normalized table the validation
manager holds, so it is read from `s.rules`. -/
def isValidComputed (s : VMState) : Bool :=
  let hasValidating := s.isValidating.values.any (fun v => v)
  if hasValidating then false
  else s.errors.keys.all (fun fieldKey =>
    if isConditionallyInactive s.rules s.values fieldKey then true
    else ((s.errors.get? fieldKey).getD []).isEmpty)

/-! ## The validation executor (ValidationManager.validateField) -/

/-- The per-run context of one `validateField` call: the field, the run's
abort token, and the value read at the start of the run. -/
structure LoopCtx where
  path : FPath
  tok : Nat
  value : Value

/-- Outcome of the rule loop: normal completion with the accumulated
`fieldErrors` (empty, a short-circuiting rule's messages, or a caught
exception's message), or the early `return []` taken when the run observes
its own abort after an `await`. -/
inductive LoopRes where
  | completed (s : VMState) (fieldErrors : List String) (log : List RuleCall)
  | abortedEarly (s : VMState) (log : List RuleCall)

def LoopRes.state : LoopRes → VMState
  | .completed s _ _ => s
  | .abortedEarly s _ => s

def LoopRes.log : LoopRes → List RuleCall
  | .completed _ _ lg => lg
  | .abortedEarly _ lg => lg

/-- Prepend the current rule's invocation record to a loop outcome's log. -/
def LoopRes.consLog (c : RuleCall) : LoopRes → LoopRes
  | .completed s fe lg => .completed s fe (c :: lg)
  | .abortedEarly s lg => .abortedEarly s (c :: lg)

/-- The rule loop of `validateField` (lines 269-304), run sequentially: every
`await` resumes against the state the run left, i.e. no other call
interleaves.  On the first pending result the run clears the field's errors
and sets its validating flag; after each `await` a fulfilled result is
checked against the abort token, while a rejection goes to the `catch` and
short-circuits like a failure. -/
def ruleLoopSeq (ctx : LoopCtx) (s : VMState) (validatingAsync : Bool) (idx : Nat) :
    List VRule → LoopRes
  | [] => .completed s [] []
  | rule :: rest =>
    let call : RuleCall := ⟨ctx.path, idx, ctx.value, s.values⟩
    match rule.run ctx.value s.values ctx.path with
    | .sync (.error msg) => .completed s [msg] [call]
    | .sync (.ok res) =>
        let resolvedErrors := resolveValidationResult res
        if resolvedErrors.isEmpty then
          LoopRes.consLog call (ruleLoopSeq ctx s validatingAsync (idx + 1) rest)
        else .completed s resolvedErrors [call]
    | .async pending =>
        let s1 := if !validatingAsync then
            {s with errors := s.errors.set ctx.path [],
                    isValidating := s.isValidating.set ctx.path true}
          else s
        match pending with
        | .error msg => .completed s1 [msg] [call]
        | .ok res =>
            if s1.abortedToks.contains ctx.tok then .abortedEarly s1 [call]
            else
              let resolvedErrors := resolveValidationResult res
              if resolvedErrors.isEmpty then
                LoopRes.consLog call (ruleLoopSeq ctx s1 true (idx + 1) rest)
              else .completed s1 resolvedErrors [call]

/-- The `finally` block: only the run whose controller is still the current
one clears the validating flag and removes its controller. -/
def finallyAct (s : VMState) (p : FPath) (tok : Nat) : VMState :=
  if s.abortControllers.get? p == some tok then
    {s with isValidating := s.isValidating.set p false,
            abortControllers := s.abortControllers.erase p}
  else s

/-- Normal completion of a miss: write the cache entry (cloned value, final
errors, cloned dependency snapshot when the field has a dependency entry),
write the error store, then run the `finally` block. -/
def finishRun (s : VMState) (ctx : LoopCtx) (hasDep : Bool) (depsValues : Value)
    (fieldErrors : List String) : List String × VMState :=
  let entry : CacheEntry :=
    { value := deepClone ctx.value,
      errors := fieldErrors,
      depsValues := if hasDep then some (deepClone depsValues) else none }
  let s := {s with validationCache := s.validationCache.set ctx.path entry,
                   errors := s.errors.set ctx.path fieldErrors}
  (fieldErrors, finallyAct s ctx.path ctx.tok)

/-- Result of the part of `validateField` before the rule loop: an early
return (no rules, or a cache hit), or the inputs for the loop. -/
inductive PreludeRes where
  | done (result : List String) (s : VMState)
  | toLoop (ctx : LoopCtx) (hasDep : Bool) (depsValues : Value)
      (fieldRules : List VRule) (s : VMState)

/-- `expandedRules[fieldKey] ?? this.rules[name] ?? []`, skipping the
expansion when no rule key has a wildcard; returns the possibly
memo-updated state. -/
def resolveRulesOf (s : VMState) (p : FPath) : List VRule × VMState :=
  if s.hasWildcardRules then
    let q := getExpandedRules s
    (((q.1.get? p).getD ((q.2.rules.get? p).getD [])), q.2)
  else (((s.rules.get? p).getD []), s)

/-- `fieldKey.includes('.') ? getNestedValue(values, fieldKey) :
values[name]`. -/
def readFieldValue (values : Value) (p : FPath) : Value :=
  if pathIsNested p then getNestedValue values p else jsIndex values (p.headD "")

/-- The dependency entry for a field: exact field match first, then (for
nested keys) a wildcard-pattern match. -/
def depOf (deps : List FieldDep) (p : FPath) : Option FieldDep :=
  match deps.find? (fun d => d.field = p) with
  | some d => some d
  | none =>
      if pathIsNested p then
        deps.find? (fun d => pathHasStar d.field && matchesWildcard d.field p)
      else none

/-- The dependency-value record `depsValues` collected before the cache
check: each declared dependency path (wildcards resolved against the
field's own concrete path) mapped to its current value. -/
def depsValuesOf (deps : List FieldDep) (values : Value) (p : FPath) : Value :=
  .vObj (match depOf deps p with
    | none => []
    | some d => d.dependsOn.foldl (fun fs depField =>
        let resolved := if pathHasStar depField then resolveWildcard depField p
          else depField
        SMap.set fs (joinPath resolved) (readFieldValue values resolved)) [])

/-- Lines 194-202: abort any previous controller for the path (its token
joins the aborted set) and install a brand-new controller token. -/
def installToken (s0 : VMState) (p : FPath) : VMState × Nat :=
  let s := match s0.abortControllers.get? p with
    | some t => {s0 with abortedToks := t :: s0.abortedToks}
    | none => s0
  ({s with abortControllers := s.abortControllers.set p s.nextTok,
           nextTok := s.nextTok + 1}, s.nextTok)

/-- `validateField` up to the rule loop (lines 191-259): abort the previous
controller and install a fresh one; resolve the effective rule list (via the
memoized expansion when any wildcard rule exists); read the current value; on
an empty rule list clear the field's errors and return; collect the
dependency-value record; on a cache hit (value and dependency snapshot both
`deepEqual`) copy the cached errors into the error store and return them. -/
def validateFieldPrelude (s0 : VMState) (p : FPath) : PreludeRes :=
  let it := installToken s0 p
  let tok := it.2
  let s := it.1
  let pr := resolveRulesOf s p
  let fieldRules := pr.1
  let s := pr.2
  let currentValue := readFieldValue s.values p
  if fieldRules.isEmpty then
    let s := {s with errors := s.errors.set p []}
    let s := if s.abortControllers.get? p == some tok
      then {s with abortControllers := s.abortControllers.erase p} else s
    .done [] s
  else
    let dep := depOf s.fieldDependencies p
    let depsValues := depsValuesOf s.fieldDependencies s.values p
    match s.validationCache.get? p with
    | some cached =>
        if deepEqual cached.value currentValue &&
           deepEqual (cached.depsValues.getD (.vObj [])) depsValues then
          let s := {s with errors := s.errors.set p cached.errors}
          let s := if s.abortControllers.get? p == some tok
            then {s with abortControllers := s.abortControllers.erase p} else s
          .done cached.errors s
        else .toLoop ⟨p, tok, currentValue⟩ dep.isSome depsValues fieldRules s
    | none => .toLoop ⟨p, tok, currentValue⟩ dep.isSome depsValues fieldRules s

/-- One complete `validateField` run with no interleaving: prelude, pre-loop
abort check, rule loop, then cache/error writes and the `finally` block.
Returns the promise's resolved value, the final state, and the rule
invocations performed. -/
def validateFieldSeq (s0 : VMState) (p : FPath) :
    List String × VMState × List RuleCall :=
  match validateFieldPrelude s0 p with
  | .done result s => (result, s, [])
  | .toLoop ctx hasDep depsValues fieldRules s =>
      if s.abortedToks.contains ctx.tok then ([], finallyAct s p ctx.tok, [])
      else match ruleLoopSeq ctx s false 0 fieldRules with
        | .completed s' fieldErrors log =>
            let r := finishRun s' ctx hasDep depsValues fieldErrors
            (r.1, r.2, log)
        | .abortedEarly s' log => ([], finallyAct s' p ctx.tok, log)

/-! ### The same run split at its first await, for interleaving scenarios -/

/-- A run suspended at its first `await`: the pending result, the index and
tail of the remaining rules, and the run context. -/
structure RunCont where
  ctx : LoopCtx
  hasDep : Bool
  depsValues : Value
  pending : Except String Value
  idx : Nat
  rest : List VRule

/-- Outcome of the rule loop when stopped at the first pending result. -/
inductive LoopStartRes where
  | completed (s : VMState) (fieldErrors : List String) (log : List RuleCall)
  | suspendedAt (s : VMState) (idx : Nat) (pending : Except String Value)
      (rest : List VRule) (log : List RuleCall)

def LoopStartRes.consLog (c : RuleCall) : LoopStartRes → LoopStartRes
  | .completed s fe lg => .completed s fe (c :: lg)
  | .suspendedAt s i pnd r lg => .suspendedAt s i pnd r (c :: lg)

/-- The rule loop, stopping at the first asynchronous rule: synchronous rules
run as in `ruleLoopSeq`; the first pending result clears the field's errors,
sets its validating flag, and suspends. -/
def ruleLoopStart (ctx : LoopCtx) (s : VMState) (idx : Nat) :
    List VRule → LoopStartRes
  | [] => .completed s [] []
  | rule :: rest =>
    let call : RuleCall := ⟨ctx.path, idx, ctx.value, s.values⟩
    match rule.run ctx.value s.values ctx.path with
    | .sync (.error msg) => .completed s [msg] [call]
    | .sync (.ok res) =>
        let resolvedErrors := resolveValidationResult res
        if resolvedErrors.isEmpty then
          LoopStartRes.consLog call (ruleLoopStart ctx s (idx + 1) rest)
        else .completed s resolvedErrors [call]
    | .async pending =>
        let s1 := {s with errors := s.errors.set ctx.path [],
                          isValidating := s.isValidating.set ctx.path true}
        .suspendedAt s1 (idx + 1) pending rest [call]

/-- Result of starting a `validateField` call: it either finishes without
suspending, or suspends at its first `await`. -/
inductive VFStartRes where
  | done (result : List String) (s : VMState) (log : List RuleCall)
  | suspended (rc : RunCont) (s : VMState) (log : List RuleCall)

/-- Start a `validateField` call, running synchronously up to its first
`await` (or to completion if no rule is asynchronous). -/
def validateFieldStart (s0 : VMState) (p : FPath) : VFStartRes :=
  match validateFieldPrelude s0 p with
  | .done result s => .done result s []
  | .toLoop ctx hasDep depsValues fieldRules s =>
      if s.abortedToks.contains ctx.tok then .done [] (finallyAct s p ctx.tok) []
      else match ruleLoopStart ctx s 0 fieldRules with
        | .completed s' fieldErrors log =>
            let r := finishRun s' ctx hasDep depsValues fieldErrors
            .done r.1 r.2 log
        | .suspendedAt s' i pending rest log =>
            .suspended ⟨ctx, hasDep, depsValues, pending, i, rest⟩ s' log

/-- Resume a run suspended at its first `await`, against whatever state the
interleaved activity left; the remainder of the run proceeds without further
interleaving.  A rejected pending result goes to the `catch` (bypassing the
abort check) and short-circuits like a failure; a fulfilled result is first
checked against the run's abort token. -/
def validateFieldResume (s : VMState) (rc : RunCont) :
    List String × VMState × List RuleCall :=
  match rc.pending with
  | .error msg =>
      let r := finishRun s rc.ctx rc.hasDep rc.depsValues [msg]
      (r.1, r.2, [])
  | .ok res =>
      if s.abortedToks.contains rc.ctx.tok then
        ([], finallyAct s rc.ctx.path rc.ctx.tok, [])
      else
        let resolvedErrors := resolveValidationResult res
        if resolvedErrors.isEmpty then
          match ruleLoopSeq rc.ctx s true rc.idx rc.rest with
          | .completed s' fe log =>
              let r := finishRun s' rc.ctx rc.hasDep rc.depsValues fe
              (r.1, r.2, log)
          | .abortedEarly s' log => ([], finallyAct s' rc.ctx.path rc.ctx.tok, log)
        else
          let r := finishRun s rc.ctx rc.hasDep rc.depsValues resolvedErrors
          (r.1, r.2, [])

/-! ## validateForm and dependent-field propagation -/

/-- `validateForm` (which `createForm` always calls with the touched map):
recompute the expansion, mark every expanded field touched, validate each
field (initiated concurrently in the source; with the runs interleaving only
at awaits this foldl is their settled result), purge stale nested errors not
in the active field set, and report whether every error list is empty. -/
def validateFormModel (s0 : VMState) (touched0 : SMap FPath Bool) :
    Bool × VMState × SMap FPath Bool × List RuleCall :=
  let s := {s0 with expandedRulesCache := none}
  let q := getExpandedRules s
  let allFields := q.1.keys
  let s := q.2
  let touched := allFields.foldl (fun t f => t.set f true) touched0
  let r := allFields.foldl (fun (acc : VMState × List RuleCall) f =>
      let out := validateFieldSeq acc.1 f
      (out.2.1, acc.2 ++ out.2.2)) (s, [])
  let s := r.1
  let activeFields := s.rules.keys ++ allFields
  let s := {s with errors := s.errors.filter (fun e =>
    !(pathIsNested e.1 && !(activeFields.contains e.1)))}
  (s.errors.values.all (fun fe => fe.isEmpty), s, touched, r.2)

/-- `validateDependentFields`: find the changed field's dependents, keep the
touched ones, drop exactly their cache entries, then (after the `nextTick`
yield, during which nothing else runs in this model) validate each of them. -/
def validateDependentFields (s0 : VMState) (changedField : FPath)
    (touched : SMap FPath Bool) : VMState × List RuleCall :=
  let q := getDependentFields s0 changedField
  let dependentFields := q.1
  let s := q.2
  let touchedDependents := dependentFields.filter (fun f => (touched.get? f).getD false)
  if touchedDependents.isEmpty then (s, [])
  else
    let s := {s with validationCache :=
      touchedDependents.foldl (fun c f => c.erase f) s.validationCache}
    touchedDependents.foldl (fun (acc : VMState × List RuleCall) f =>
        let out := validateFieldSeq acc.1 f
        (out.2.1, acc.2 ++ out.2.2)) (s, [])

/-! ## Concrete rules (src/rules/basic.ts, src/rules/advanced.ts) -/

/-- The `v === null || v === undefined || v === ''` emptiness test used by
`requiredIf` and `remote`. -/
def isNullUndefOrEmptyStr : Value → Bool
  | .vNull => true
  | .vUndef => true
  | .vStr s => s.isEmpty
  | _ => false

mutual
/-- JavaScript `String(v)`.  Host objects (files, dates) and plain objects
render opaquely; only the string and number cases are exercised by the
theorems below. -/
def jsToString : Value → String
  | .vUndef => "undefined"
  | .vNull => "null"
  | .vStr s => s
  | .vInt n => if n < 0 then "-" ++ natToString n.natAbs else natToString n.natAbs
  | .vBool b => if b then "true" else "false"
  | .vArr xs => jsToStringList xs
  | .vObj _ => "[object Object]"
  | .vFile _ _ _ _ => "[object File]"
  | .vDate _ => "[date]"

def jsToStringList : List Value → String
  | [] => ""
  | [x] => jsToString x
  | x :: xs => jsToString x ++ "," ++ jsToStringList xs
end

/-- `requiredIf(conditionField, conditionValue, msg)` from
`src/rules/advanced.ts`; the executor always passes `meta.fieldPath`, so the
condition field is always resolved against it. -/
def requiredIfRule (conditionField : FPath) (conditionValue : Value) (msg : String) :
    VRule :=
  { run := fun v formValues fieldPath =>
      .sync (.ok (
        if formValues.isFalsy then .vNull
        else
          let resolved := resolveWildcard conditionField fieldPath
          let shouldBeRequired :=
            jsStrictEq (getNestedValue formValues resolved) conditionValue
          if !shouldBeRequired then .vNull
          else if isNullUndefOrEmptyStr v then .vStr msg
          else match v with
            | .vArr [] => .vStr msg
            | _ => .vNull)),
    crossField := some [conditionField],
    requiredIfMeta := some (conditionField, conditionValue) }

/-- `minLength(len, msg)` from `src/rules/basic.ts` (for `len ≥ 0`, since the
factory throws on a negative length): falsy values pass, otherwise the
rendered value must have at least `len` characters. -/
def minLengthRule (len : Nat) (msg : String) : VRule :=
  { run := fun v _ _ =>
      .sync (.ok (
        if v.isFalsy || len ≤ (jsToString v).length then .vNull
        else .vStr msg)) }

/-- `sameAs(fieldName, msg)` from `src/rules/advanced.ts`: empty-and-empty
passes, otherwise the value must strictly equal the resolved other field. -/
def sameAsRule (fieldName : FPath) (msg : String) : VRule :=
  { run := fun v formValues fieldPath =>
      .sync (.ok (
        if formValues.isFalsy then .vNull
        else
          let resolved := resolveWildcard fieldName fieldPath
          let otherValue := getNestedValue formValues resolved
          if isNullUndefOrEmptyStr v && isNullUndefOrEmptyStr otherValue then .vNull
          else if jsStrictEq v otherValue then .vNull
          else .vStr msg)),
    crossField := some [fieldName] }

/-- The body of the `remote(checkFn, msg)` rule from `src/rules/advanced.ts`,
as a function of the settled outcome of the debounced `checkFn(value)` call:
empty values pass without calling; a fulfilled `true` passes; a fulfilled
`false` produces the message; any rejection (transport failure or the
debouncer's cancellation) is caught and passes. -/
def remoteRuleResult {ε : Type} (outcome : Except ε Bool) (msg : String)
    (v : Value) : Value :=
  if isNullUndefOrEmptyStr v then .vNull
  else match outcome with
    | .ok isOk => if isOk then .vNull else .vStr msg
    | .error _ => .vNull

/-- The `remote` rule as seen by the executor: an `async` rule whose promise
always fulfills (the `try/catch` inside the rule swallows rejections),
resolving to `remoteRuleResult` of the check's settled outcome. -/
def remoteRule {ε : Type} (check : Value → Except ε Bool) (msg : String) : VRule :=
  { run := fun v _ _ => .async (.ok (remoteRuleResult (check v) msg v)) }

/-! ## The debounced cancellable caller (src/utils/debounce.ts) -/

/-- How one call into the debounced wrapper settles. -/
inductive DebOutcome (ε : Type) where
  | cancelled
  | result (r : Except ε Bool)

/-- The debounced wrapper of `src/utils/debounce.ts`, driven by a list of
timestamped calls.  The accumulator holds the pending timer (its fire time
and argument); a new call arriving at `t`: if the pending timer was due to
fire by `t` it has fired (invoking `check` and settling that call's promise
with the outcome), otherwise the new call rejects the pending promise with
the `AbortError` cancellation and clears the timer; either way the new call
schedules its own timer `delay` later.  After the last call the remaining
timer fires.  Returns the `check` invocations (in order, with their
arguments) and each call's settlement (in call order). -/
def debounceRun {α ε : Type} (delay : Nat) (check : α → Except ε Bool) :
    Option (Nat × α) → List (Nat × α) → List α × List (DebOutcome ε)
  | none, [] => ([], [])
  | some (_, a), [] => ([a], [.result (check a)])
  | none, (t, a) :: rest => debounceRun delay check (some (t + delay, a)) rest
  | some (ft, a), (t, b) :: rest =>
      if ft ≤ t then
        let r := debounceRun delay check (some (t + delay, b)) rest
        (a :: r.1, .result (check a) :: r.2)
      else
        let r := debounceRun delay check (some (t + delay, b)) rest
        (r.1, .cancelled :: r.2)

/-- The debounced wrapper applied to a fresh state. -/
def debounceModel {α ε : Type} (delay : Nat) (check : α → Except ε Bool)
    (calls : List (Nat × α)) : List α × List (DebOutcome ε) :=
  debounceRun delay check none calls

/-! ## Claim C8: debounce burst coalescing -/

/-- A burst relative to a pending timer that fires at `ft`: each call arrives
strictly before the previously scheduled timer fires. -/
def Burst {α : Type} (delay : Nat) : Nat → List (Nat × α) → Prop
  | _, [] => True
  | ft, (t, _) :: rest => t < ft ∧ Burst delay (t + delay) rest

/-! ## Frame lemmas for the rule loop -/

/-- State components a `validateField` rule loop for field `p` can never
change; errors and validating flags may change only at `p` itself. -/
structure SameBut (p : FPath) (s s' : VMState) : Prop where
  cache : s'.validationCache = s.validationCache
  ctrl : s'.abortControllers = s.abortControllers
  aborted : s'.abortedToks = s.abortedToks
  ntok : s'.nextTok = s.nextTok
  values : s'.values = s.values
  rules : s'.rules = s.rules
  deps : s'.fieldDependencies = s.fieldDependencies
  hasW : s'.hasWildcardRules = s.hasWildcardRules
  memo : s'.expandedRulesCache = s.expandedRulesCache
  errs : ∀ q, q ≠ p → s'.errors.get? q = s.errors.get? q
  valing : ∀ q, q ≠ p → s'.isValidating.get? q = s.isValidating.get? q

/-! ## Token bookkeeping -/

/-- All live and aborted tokens are below the fresh-token counter. -/
def TokensOk (s : VMState) : Prop :=
  (∀ t ∈ s.abortedToks, t < s.nextTok) ∧
  (∀ q t, s.abortControllers.get? q = some t → t < s.nextTok)

def c1State : VMState :=
  { validationCache := [], errors := [], isValidating := [],
    abortControllers := [], abortedToks := [], nextTok := 0,
    values := .vObj [("name", .vStr "x")],
    rules := [(["name"], [minLengthRule 1 "too short"])],
    fieldDependencies := [], hasWildcardRules := false,
    expandedRulesCache := none }

def c3State : VMState :=
  { validationCache := [], errors := [], isValidating := [],
    abortControllers := [], abortedToks := [], nextTok := 0,
    values := .vObj [("type", .vStr "personal"), ("company", .vStr "ab")],
    rules := [(["company"],
      [requiredIfRule ["type"] (.vStr "business") "Company is required",
       minLengthRule 5 "Company name too short"])],
    fieldDependencies := [], hasWildcardRules := false,
    expandedRulesCache := none }

instance : Nonempty CacheEntry := ⟨⟨.vUndef, [], none⟩⟩

def PreludeRes.st : PreludeRes → VMState
  | .done _ s => s
  | .toLoop _ _ _ _ s => s

/-- The fold body of `getDependentFields`, named. -/
def gdfStep (changedField : FPath) (acc : List FPath × VMState)
    (dep : FieldDep) : List FPath × VMState :=
  let isMatch := dep.dependsOn.any (fun d =>
    if d = changedField then true
    else if pathHasStar d then matchesWildcard d changedField
    else false)
  if !isMatch then acc
  else if pathHasStar dep.field then
    let q := getExpandedRules acc.2
    (acc.1 ++ q.1.keys.filter (fun key => matchesWildcard dep.field key), q.2)
  else (acc.1 ++ [dep.field], acc.2)

/-- Invariant of the `getDependentFields` fold: the carried state differs
from the start state at most in the expansion memo, and a filled memo holds
exactly the start state's expansion. -/
def GDFInv (s : VMState) (acc : List FPath × VMState) : Prop :=
  acc.2.validationCache = s.validationCache ∧
  acc.2.errors = s.errors ∧
  acc.2.isValidating = s.isValidating ∧
  acc.2.abortControllers = s.abortControllers ∧
  acc.2.abortedToks = s.abortedToks ∧
  acc.2.nextTok = s.nextTok ∧
  acc.2.values = s.values ∧
  acc.2.rules = s.rules ∧
  acc.2.fieldDependencies = s.fieldDependencies ∧
  acc.2.hasWildcardRules = s.hasWildcardRules ∧
  (acc.2.expandedRulesCache = s.expandedRulesCache ∨
   acc.2.expandedRulesCache = some (getExpandedRules s).1)

/-- Why a dependency entry contributes the dependent field `f` for the
changed field `c`: one of its `dependsOn` paths matches `c` exactly or by
wildcard, and `f` is the entry's own field (concrete) or an expanded rule key
matching the entry's wildcard field pattern. -/
def DepContrib (s : VMState) (c : FPath) (f : FPath) (dep : FieldDep) : Prop :=
  (∃ d ∈ dep.dependsOn, d = c ∨
    (pathHasStar d = true ∧ matchesWildcard d c = true)) ∧
  ((pathHasStar dep.field = false ∧ f = dep.field) ∨
   (pathHasStar dep.field = true ∧ f ∈ SMap.keys (getExpandedRules s).1 ∧
    matchesWildcard dep.field f = true))

/-- A rule invocation that passes: its synchronous or awaited fulfilled
result resolves to no error message. -/
def RulePasses (ctx : LoopCtx) (vals : Value) (r : VRule) : Prop :=
  (∃ res, r.run ctx.value vals ctx.path = .sync (.ok res) ∧
    (resolveValidationResult res).isEmpty = true) ∨
  (∃ res, r.run ctx.value vals ctx.path = .async (.ok res) ∧
    (resolveValidationResult res).isEmpty = true)

/-- A rule invocation that ends the run with the error list `errs`: a thrown
exception or rejected promise (one message), or a fulfilled result resolving
to a non-empty message list. -/
def RuleFails (ctx : LoopCtx) (vals : Value) (r : VRule)
    (errs : List String) : Prop :=
  (∃ msg, r.run ctx.value vals ctx.path = .sync (.error msg) ∧ errs = [msg]) ∨
  (∃ res, r.run ctx.value vals ctx.path = .sync (.ok res) ∧
    (resolveValidationResult res).isEmpty = false ∧
    errs = resolveValidationResult res) ∨
  (∃ msg, r.run ctx.value vals ctx.path = .async (.error msg) ∧
    errs = [msg]) ∨
  (∃ res, r.run ctx.value vals ctx.path = .async (.ok res) ∧
    (resolveValidationResult res).isEmpty = false ∧
    errs = resolveValidationResult res)

/-- A user-supplied rule whose body throws with message `msg`, as in the
spec's throwing-rule scenario (the executor receives the exception as a
rejected `Promise.resolve` chain / thrown call). -/
def throwRule (msg : String) : VRule :=
  { run := fun _ _ _ => .sync (.error msg) }

def c7State : VMState :=
  { validationCache := [], errors := [(["other"], ["kept"])], isValidating := [],
    abortControllers := [], abortedToks := [], nextTok := 0,
    values := .vObj [("name", .vStr "x")],
    rules := [(["name"], [throwRule "boom"])],
    fieldDependencies := [], hasWildcardRules := false,
    expandedRulesCache := none }

/-- A user rule returning a promise that rejects with `"boom"` while the
field holds `"bad"` and fulfills passing otherwise — the first call's promise
rejects, a later call's fulfills. -/
def flakyRule : VRule :=
  { run := fun v _ _ =>
      if jsStrictEq v (.vStr "bad") then .async (.error "boom")
      else .async (.ok .vNull) }

def c2State : VMState :=
  { validationCache := [], errors := [], isValidating := [],
    abortControllers := [], abortedToks := [], nextTok := 0,
    values := .vObj [("name", .vStr "bad")],
    rules := [(["name"], [flakyRule])],
    fieldDependencies := [], hasWildcardRules := false,
    expandedRulesCache := none }

/-- The state in which the first call suspends at its `await`. -/
def c2Mid : VMState :=
  { validationCache := [], errors := [(["name"], [])],
    isValidating := [(["name"], true)], abortControllers := [(["name"], 0)],
    abortedToks := [], nextTok := 1,
    values := .vObj [("name", .vStr "bad")],
    rules := [(["name"], [flakyRule])],
    fieldDependencies := [], hasWildcardRules := false,
    expandedRulesCache := none }

/-- The suspended first run: its token is `0`, its awaited promise rejects
with `"boom"`. -/
def c2Cont : RunCont :=
  ⟨⟨["name"], 0, .vStr "bad"⟩, false, .vObj [], .error "boom", 1, []⟩

/-- The user edits the field to `"good"` while the first run is suspended. -/
def c2MidEdited : VMState :=
  {c2Mid with values := .vObj [("name", .vStr "good")]}

theorem Value.inductionOn (P : Value → Prop)
    (hUndef : P .vUndef) (hNull : P .vNull)
    (hStr : ∀ s, P (.vStr s)) (hInt : ∀ n, P (.vInt n)) (hBool : ∀ b, P (.vBool b))
    (hArr : ∀ xs, (∀ x ∈ xs, P x) → P (.vArr xs))
    (hObj : ∀ fs, (∀ kv ∈ fs, P kv.2) → P (.vObj fs))
    (hFile : ∀ n sz lm i, P (.vFile n sz lm i))
    (hDate : ∀ t, P (.vDate t)) : ∀ v, P v := by
  suffices h : ∀ n (v : Value), sizeOf v ≤ n → P v from fun v => h (sizeOf v) v le_rfl
  intro n
  induction n using Nat.strong_induction_on with
  | _ n ih =>
    intro v hv
    match v with
    | .vUndef => exact hUndef
    | .vNull => exact hNull
    | .vStr s => exact hStr s
    | .vInt m => exact hInt m
    | .vBool b => exact hBool b
    | .vFile nm sz lm i => exact hFile nm sz lm i
    | .vDate t => exact hDate t
    | .vArr xs =>
      refine hArr xs (fun x hx => ?_)
      have h1 := List.sizeOf_lt_of_mem hx
      have h2 : sizeOf x < n := by
        have : sizeOf (Value.vArr xs) = 1 + sizeOf xs := Value.vArr.sizeOf_spec xs
        omega
      exact ih (sizeOf x) h2 x le_rfl
    | .vObj fs =>
      refine hObj fs (fun kv hkv => ?_)
      have h1 := List.sizeOf_lt_of_mem hkv
      have h2 : sizeOf kv.2 < sizeOf kv := by
        obtain ⟨a, b⟩ := kv
        simp only [Prod.mk.sizeOf_spec]
        omega
      have h3 : sizeOf kv.2 < n := by
        have : sizeOf (Value.vObj fs) = 1 + sizeOf fs := Value.vObj.sizeOf_spec fs
        omega
      exact ih (sizeOf kv.2) h3 kv.2 le_rfl

theorem deepEqualList_deepClone (xs : List Value)
    (ih : ∀ x ∈ xs, deepEqual (deepClone x) x = true) :
    deepEqualList (deepCloneList xs) xs = true := by
  induction xs with
  | nil => simp [deepCloneList, deepEqualList]
  | cons x xs ihl =>
    simp only [deepCloneList, deepEqualList, Bool.and_eq_true]
    exact ⟨ih x (by simp), ihl fun y hy => ih y (by simp [hy])⟩

theorem deepCloneList_length (xs : List Value) : (deepCloneList xs).length = xs.length := by
  induction xs with
  | nil => rfl
  | cons x xs ihl => simp [deepCloneList, ihl]

theorem deepCloneFields_length (fs : List (String × Value)) :
    (deepCloneFields fs).length = fs.length := by
  induction fs with
  | nil => rfl
  | cons f fs ihl =>
    obtain ⟨k, v⟩ := f
    simp [deepCloneFields, ihl]

theorem wfList_mem {xs : List Value} (h : wfList xs = true) :
    ∀ x ∈ xs, wfValue x = true := by
  induction xs with
  | nil => intro x hx; cases hx
  | cons y ys ihl =>
    rw [wfList, Bool.and_eq_true] at h
    intro x hx
    rcases List.mem_cons.mp hx with rfl | htail
    · exact h.1
    · exact ihl h.2 x htail

theorem wfFields_mem {fs : List (String × Value)} (h : wfFields fs = true) :
    ∀ kv ∈ fs, wfValue kv.2 = true := by
  induction fs with
  | nil => intro x hx; cases hx
  | cons g gs ihl =>
    obtain ⟨k, v⟩ := g
    rw [wfFields, Bool.and_eq_true] at h
    intro kv hkv
    rcases List.mem_cons.mp hkv with rfl | htail
    · exact h.1
    · exact ihl h.2 kv htail

theorem nodupKeys_find? {fs : List (String × Value)} {k : String} {v : Value}
    (hnd : nodupKeys fs = true) (hmem : (k, v) ∈ fs) :
    fs.find? (fun q => q.1 == k) = some (k, v) := by
  induction fs with
  | nil => cases hmem
  | cons f fs ihl =>
    obtain ⟨k0, v0⟩ := f
    rw [nodupKeys, Bool.and_eq_true] at hnd
    rcases List.mem_cons.mp hmem with heq | htail
    · cases heq
      simp [List.find?]
    · have hk : (k0 == k) = false := by
        refine beq_eq_false_iff_ne.mpr ?_
        intro hEq
        subst hEq
        have hco : fs.any (fun q => q.1 == k0) = true :=
          List.any_eq_true.mpr ⟨(k0, v), htail, by simp⟩
        simp [hco] at hnd
      simp only [List.find?, hk]
      exact ihl hnd.2 htail

/-- A deep clone of a well-formed value is `deepEqual` to the original; this
is what makes the validation cache's hit test succeed on unchanged values. -/
theorem deepEqual_deepClone (v : Value) :
    wfValue v = true → deepEqual (deepClone v) v = true := by
  induction v using Value.inductionOn with
  | hArr xs ih =>
    intro hwf
    rw [wfValue] at hwf
    simp only [deepClone, deepEqual, Bool.and_eq_true, beq_iff_eq]
    refine ⟨deepCloneList_length xs, ?_⟩
    exact deepEqualList_deepClone xs (fun x hx => ih x hx (wfList_mem hwf x hx))
  | hObj fs ih =>
    intro hwf
    rw [wfValue, Bool.and_eq_true] at hwf
    obtain ⟨hnd, hwfs⟩ := hwf
    simp only [deepClone, deepEqual, Bool.and_eq_true, beq_iff_eq]
    refine ⟨deepCloneFields_length fs, ?_⟩
    have main : ∀ (gs : List (String × Value)),
        (∀ kv ∈ gs, kv ∈ fs) →
        deepEqualFields (deepCloneFields gs) fs = true := by
      intro gs
      induction gs with
      | nil => intro _; rfl
      | cons g gs ihg =>
        intro hsub
        obtain ⟨k, v⟩ := g
        have hmem : (k, v) ∈ fs := hsub (k, v) (by simp)
        simp only [deepCloneFields, deepEqualFields, Bool.and_eq_true]
        constructor
        · rw [nodupKeys_find? hnd hmem]
          exact ih (k, v) hmem (wfFields_mem hwfs (k, v) hmem)
        · exact ihg (fun kv hkv => hsub kv (by simp [hkv]))
    exact main fs (fun kv hkv => hkv)
  | _ =>
    intro hwf
    first
      | rfl
      | simp [deepClone, deepEqual]

theorem digitChar_inj : ∀ a < 10, ∀ b < 10, Nat.digitChar a = Nat.digitChar b → a = b := by
  decide

theorem natToString_ne_zero_of_pos {n : Nat} (hn : n ≠ 0) : natToString n ≠ "0" := by
  intro h
  rw [natToString, if_neg hn] at h
  have hdata : ((Nat.digits 10 n).map Nat.digitChar).reverse = ['0'] :=
    congrArg String.data h
  have hlist : (Nat.digits 10 n).map Nat.digitChar = ['0'] := by
    have := congrArg List.reverse hdata
    simpa using this
  match hd : Nat.digits 10 n with
  | [] => exact (Nat.digits_ne_nil_iff_ne_zero.mpr hn) hd
  | [d] =>
    rw [hd] at hlist
    simp only [List.map_cons, List.map_nil, List.cons.injEq] at hlist
    have hdlt : d < 10 := Nat.digits_lt_base (by norm_num) (by rw [hd]; simp)
    have hd0 : d = 0 := digitChar_inj d hdlt 0 (by norm_num) (by simpa using hlist.1)
    have hne : Nat.digits 10 n ≠ [] := by simp [hd]
    have hlast := Nat.getLast_digit_ne_zero 10 hn
    have hq : (Nat.digits 10 n).getLast? = some ((Nat.digits 10 n).getLast hne) :=
      List.getLast?_eq_getLast _ hne
    have hq2 : (Nat.digits 10 n).getLast? = some d := by rw [hd]; rfl
    have hgl : (Nat.digits 10 n).getLast hne = d := Option.some.inj (hq.symm.trans hq2)
    exact hlast (by rw [hgl, hd0])
  | d :: d' :: ds =>
    rw [hd] at hlist
    simp at hlist

theorem natToString_inj {n m : Nat} (h : natToString n = natToString m) : n = m := by
  by_cases hn : n = 0 <;> by_cases hm : m = 0
  · omega
  · exfalso
    subst hn
    exact natToString_ne_zero_of_pos hm (by rw [← h]; rfl)
  · exfalso
    subst hm
    exact natToString_ne_zero_of_pos hn h
  · rw [natToString, if_neg hn, natToString, if_neg hm] at h
    have hdata := congrArg String.data h
    simp only at hdata
    have hrev := congrArg List.reverse hdata
    simp only [List.reverse_reverse] at hrev
    have hdig : Nat.digits 10 n = Nat.digits 10 m := by
      have hlen : (Nat.digits 10 n).length = (Nat.digits 10 m).length := by
        have := congrArg List.length hrev
        simpa using this
    -- element-wise: digitChar is injective below the base
      apply List.ext_getElem hlen
      intro i h1 h2
      have hmap := congrArg (fun l => l[i]?) hrev
      simp only [List.getElem?_map] at hmap
      have h1' : i < ((Nat.digits 10 n).map Nat.digitChar).length := by simpa using h1
      have h2' : i < ((Nat.digits 10 m).map Nat.digitChar).length := by simpa using h2
      rw [List.getElem?_eq_getElem h1, List.getElem?_eq_getElem h2] at hmap
      simp only [Option.map_some', Option.some.injEq] at hmap
      exact digitChar_inj _ (Nat.digits_lt_base (by norm_num) (List.getElem_mem h1)) _
        (Nat.digits_lt_base (by norm_num) (List.getElem_mem h2)) (by simpa using hmap)
    have := congrArg (Nat.ofDigits 10) hdig
    rwa [Nat.ofDigits_digits, Nat.ofDigits_digits] at this

namespace SMap

variable {κ α : Type} [DecidableEq κ]

theorem get?_set_self (m : SMap κ α) (k : κ) (v : α) : (m.set k v).get? k = some v := by
  rw [set]
  by_cases h : m.any (fun q => q.1 == k)
  · rw [if_pos h]
    induction m with
    | nil => simp at h
    | cons q m ih =>
      by_cases hq : q.1 = k
      · simp [get?, List.find?, hq]
      · have hq' : (q.1 == k) = false := by simp [hq]
        simp only [List.any_cons, hq', Bool.false_or] at h
        simp only [List.map_cons, hq', if_false]
        rw [get?] at ih ⊢
        simpa [List.find?, hq'] using ih h
  · rw [if_neg h, get?, List.find?_append]
    have hnone : m.find? (fun q => q.1 == k) = none := by
      rw [List.find?_eq_none]
      intro q hq hb
      exact h (List.any_eq_true.mpr ⟨q, hq, hb⟩)
    rw [hnone]
    simp [List.find?]

theorem get?_set_ne (m : SMap κ α) {k k' : κ} (v : α) (h : k' ≠ k) :
    (m.set k v).get? k' = m.get? k' := by
  have hkk' : (k == k') = false := beq_eq_false_iff_ne.mpr (Ne.symm h)
  rw [set]
  by_cases hmem : m.any (fun q => q.1 == k)
  · rw [if_pos hmem, get?, get?]
    clear hmem
    induction m with
    | nil => rfl
    | cons q m ih =>
      by_cases hq : q.1 = k
      · have hbeq : (q.1 == k) = true := by simp [hq]
        have hqk' : (q.1 == k') = false := by
          rw [hq]
          exact hkk'
        simp only [List.map_cons, hbeq, if_true]
        rw [List.find?_cons_of_neg _ (by simp [hkk']), List.find?_cons_of_neg _ (by simp [hqk'])]
        exact ih
      · have hbeq : (q.1 == k) = false := by simp [hq]
        simp only [List.map_cons, hbeq, if_false]
        cases hqk' : (q.1 == k') with
        | true =>
          rw [List.find?_cons_of_pos _ (by simp [hqk']), List.find?_cons_of_pos _ (by simp [hqk'])]
          simp
        | false =>
          rw [List.find?_cons_of_neg _ (by simp [hqk']), List.find?_cons_of_neg _ (by simp [hqk'])]
          exact ih
  · rw [if_neg hmem, get?, get?, List.find?_append]
    cases hfind : m.find? (fun q => q.1 == k') with
    | some q => rfl
    | none => simp [List.find?, hkk']

theorem get?_erase_self (m : SMap κ α) (k : κ) : (m.erase k).get? k = none := by
  rw [erase, get?, Option.map_eq_none']
  rw [List.find?_eq_none]
  intro q hq
  have := List.of_mem_filter hq
  simp only [Bool.not_eq_true'] at this
  simp [this]

theorem get?_erase_ne (m : SMap κ α) {k k' : κ} (h : k' ≠ k) :
    (m.erase k).get? k' = m.get? k' := by
  rw [erase, get?, get?]
  induction m with
  | nil => rfl
  | cons q m ih =>
    by_cases hq : q.1 = k
    · have hbeq : (q.1 == k) = true := by simp [hq]
      have hqk' : (q.1 == k') = false := by
        rw [hq]
        exact beq_eq_false_iff_ne.mpr (Ne.symm h)
      simp only [List.filter_cons, hbeq, Bool.not_true, if_false]
      rw [List.find?_cons_of_neg _ (by simp [hqk'])]
      exact ih
    · have hbeq : (q.1 == k) = false := by simp [hq]
      simp only [List.filter_cons, hbeq, Bool.not_false, if_true]
      cases hqk' : (q.1 == k') with
      | true =>
        rw [List.find?_cons_of_pos _ (by simp [hqk']), List.find?_cons_of_pos _ (by simp [hqk'])]
      | false =>
        rw [List.find?_cons_of_neg _ (by simp [hqk']), List.find?_cons_of_neg _ (by simp [hqk'])]
        exact ih

end SMap

theorem debounceRun_burst {α ε : Type} (delay : Nat) (check : α → Except ε Bool) :
    ∀ (calls : List (Nat × α)) (ft : Nat) (a : α), Burst delay ft calls →
      debounceRun delay check (some (ft, a)) calls =
        ([(calls.getLastD (ft, a)).2],
         List.replicate calls.length .cancelled ++
           [.result (check (calls.getLastD (ft, a)).2)]) := by
  intro calls
  induction calls with
  | nil => intro ft a _; simp [debounceRun]
  | cons c rest ih =>
    intro ft a hb
    obtain ⟨t, b⟩ := c
    obtain ⟨hlt, hrest⟩ := hb
    rw [debounceRun]
    rw [if_neg (by omega)]
    rw [ih (t + delay) b hrest]
    have hsame : (rest.getLastD (t + delay, b)).2 = (rest.getLastD (t, b)).2 := by
      cases rest with
      | nil => rfl
      | cons r rs =>
        cases h : (r :: rs).getLast? with
        | none => simp at h
        | some x => simp [List.getLastD, h]
    rw [List.getLastD_cons, ← hsame]
    simp [List.replicate_succ]

/-- Claim C8: for a burst of debounced calls whose inter-call gaps are all
shorter than the delay, the underlying check is invoked exactly once, with
the argument of the last call; every earlier call's promise is rejected with
the distinguished cancellation error, and the check's outcome settles only
the last call's promise. -/
theorem debounce_burst_single_invocation {α ε : Type} (delay : Nat)
    (check : α → Except ε Bool) (t : Nat) (a : α) (rest : List (Nat × α))
    (hb : Burst delay (t + delay) rest) :
    debounceModel delay check ((t, a) :: rest) =
      ([(rest.getLastD (t, a)).2],
       List.replicate rest.length .cancelled ++
         [.result (check (rest.getLastD (t, a)).2)]) := by
  rw [debounceModel, debounceRun]
  rw [debounceRun_burst delay check rest (t + delay) a hb]
  have hsame : (rest.getLastD (t + delay, a)).2 = (rest.getLastD (t, a)).2 := by
    cases rest with
    | nil => rfl
    | cons r rs =>
      cases h : (r :: rs).getLast? with
      | none => simp at h
      | some x => simp [List.getLastD, h]
  rw [hsame]

theorem debounce_burst_single_invocation_witness :
    Burst 5 (0 + 5) [(3, 20)] ∧
    debounceModel 5 (fun n : Nat => (Except.ok (n == 20) : Except Unit Bool))
        [(0, 10), (3, 20)] =
      ([20], [.cancelled, .result (.ok true)]) := by
  refine ⟨⟨by omega, trivial⟩, ?_⟩
  have h := debounce_burst_single_invocation 5
    (fun n : Nat => (Except.ok (n == 20) : Except Unit Bool)) 0 10 [(3, 20)]
    ⟨by omega, trivial⟩
  simpa using h

/-! ## Claim C9: remote-check failure leniency -/

/-- Claim C9: for a non-empty value, a rejected debounced check (transport
failure or supersession) makes the `remote` rule resolve to no error — the
field passes validation — while the configured message is produced exactly
when the check fulfills with `false`. -/
theorem remote_rejection_passes {ε : Type} (outcome : Except ε Bool)
    (msg : String) (v : Value) (hne : isNullUndefOrEmptyStr v = false) :
    (∀ e, outcome = Except.error e →
        remoteRuleResult outcome msg v = Value.vNull ∧
        resolveValidationResult (remoteRuleResult outcome msg v) = []) ∧
    (outcome = Except.ok true → remoteRuleResult outcome msg v = Value.vNull) ∧
    (outcome = Except.ok false → remoteRuleResult outcome msg v = Value.vStr msg) ∧
    (∀ r, remoteRuleResult outcome msg v = Value.vStr r → outcome = Except.ok false) := by
  refine ⟨?_, ?_, ?_, ?_⟩
  · intro e he
    subst he
    constructor
    · simp [remoteRuleResult, hne]
    · simp [remoteRuleResult, hne, resolveValidationResult, Value.isFalsy]
  · intro h
    subst h
    simp [remoteRuleResult, hne]
  · intro h
    subst h
    simp [remoteRuleResult, hne]
  · intro r hr
    match outcome with
    | .error e => simp [remoteRuleResult, hne] at hr
    | .ok true => simp [remoteRuleResult, hne] at hr
    | .ok false => rfl

theorem remote_rejection_passes_witness :
    isNullUndefOrEmptyStr (Value.vStr "x") = false ∧
    remoteRuleResult (Except.error () : Except Unit Bool) "taken" (Value.vStr "x")
      = Value.vNull := by
  refine ⟨rfl, ?_⟩
  exact ((remote_rejection_passes (Except.error ()) "taken" (Value.vStr "x") rfl).1
    () rfl).1

/-! ## Claim C10: isValid gating -/

theorem SMap.get?_eq_none_of_not_mem_keys {κ α : Type} [DecidableEq κ]
    (m : SMap κ α) (k : κ) (h : k ∉ m.keys) : m.get? k = none := by
  rw [SMap.get?, Option.map_eq_none', List.find?_eq_none]
  intro q hq hbeq
  exact h (List.mem_map.mpr ⟨q, hq, by simpa using hbeq⟩)

/-- Claim C10: whenever any validating flag is set, `isValid` is false
regardless of the error lists; and `isValid` is true exactly when no
validation is in flight and every field that is not conditionally inactive
has an empty error list. -/
theorem isValid_validating_gate (s : VMState) :
    ((∃ b ∈ s.isValidating.values, b = true) → isValidComputed s = false) ∧
    (isValidComputed s = true ↔
      (∀ b ∈ s.isValidating.values, b = false) ∧
      (∀ p : FPath, isConditionallyInactive s.rules s.values p = false →
        (s.errors.get? p).getD [] = [])) := by
  constructor
  · intro ⟨b, hb, hbt⟩
    rw [isValidComputed]
    have : s.isValidating.values.any (fun v => v) = true :=
      List.any_eq_true.mpr ⟨b, hb, by simp [hbt]⟩
    simp [this]
  · rw [isValidComputed]
    by_cases hval : s.isValidating.values.any (fun v => v) = true
    · simp only [hval, if_true]
      constructor
      · intro h; exact absurd h (by simp)
      · intro ⟨h1, _⟩
        obtain ⟨b, hb, hbt⟩ := List.any_eq_true.mp hval
        exact absurd (h1 b hb) (by simp_all)
    · simp only [hval, if_false]
      have hvall : ∀ b ∈ s.isValidating.values, b = false := by
        intro b hb
        by_contra hbt
        exact hval (List.any_eq_true.mpr ⟨b, hb, by simpa using hbt⟩)
      simp only [Bool.if_true_left]
      constructor
      · intro h
        refine ⟨hvall, ?_⟩
        intro p hp
        by_cases hmem : p ∈ s.errors.keys
        · have := List.all_eq_true.mp h p hmem
          simp only [hp, Bool.false_or] at this
          simpa using this
        · rw [SMap.get?_eq_none_of_not_mem_keys s.errors p hmem]
          rfl
      · intro ⟨_, h2⟩
        refine List.all_eq_true.mpr ?_
        intro p hmem
        by_cases hp : isConditionallyInactive s.rules s.values p
        · simp [hp]
        · have := h2 p (by simpa using hp)
          simp [hp, this]

theorem isValid_validating_gate_witness :
    isValidComputed
      { validationCache := [], errors := [(["a"], ["bad"])],
        isValidating := [(["a"], true)], abortControllers := [],
        abortedToks := [], nextTok := 0, values := Value.vObj [],
        rules := [], fieldDependencies := [], hasWildcardRules := false,
        expandedRulesCache := none } = false := by
  exact (isValid_validating_gate _).1 ⟨true, by simp [SMap.values], rfl⟩

/-! ## Claim C4: wildcard expansion cardinality -/

theorem substStar_inj {pat : FPath} (hstar : "*" ∈ pat) {i j : Nat}
    (h : substStar pat i = substStar pat j) : i = j := by
  obtain ⟨n, hn, hget⟩ := List.getElem_of_mem hstar
  have h1 := congrArg (fun l => l[n]?) h
  simp only [substStar, List.getElem?_map, List.getElem?_eq_getElem hn,
    Option.map_some', hget, if_pos, Option.some.injEq] at h1
  exact natToString_inj (by simpa using h1)

theorem SMap.hasKey_append {κ α : Type} [DecidableEq κ] (m m' : SMap κ α) (k : κ) :
    (m ++ m').hasKey k = (m.hasKey k || m'.hasKey k) := by
  simp [SMap.hasKey, List.any_append]

theorem SMap.set_fresh {κ α : Type} [DecidableEq κ] (m : SMap κ α) (k : κ) (v : α)
    (h : m.hasKey k = false) : m.set k v = m ++ [(k, v)] := by
  rw [SMap.set, if_neg (by rw [SMap.hasKey] at h; simp [h])]

theorem SMap.foldl_set_fresh {κ α : Type} [DecidableEq κ] (v : α) :
    ∀ (ks : List κ) (m : SMap κ α), (∀ k ∈ ks, m.hasKey k = false) → ks.Nodup →
      ks.foldl (fun acc k => acc.set k v) m = m ++ ks.map (fun k => (k, v)) := by
  intro ks
  induction ks with
  | nil => intro m _ _; simp
  | cons k ks ih =>
    intro m hfresh hnd
    rw [List.foldl_cons, SMap.set_fresh m k v (hfresh k (by simp))]
    rw [List.nodup_cons] at hnd
    rw [ih (m ++ [(k, v)]) ?_ hnd.2]
    · simp
    · intro k2 hk2
      rw [SMap.hasKey_append, hfresh k2 (by simp [hk2]), Bool.false_or]
      have hne : k2 ≠ k := fun hc => hnd.1 (hc ▸ hk2)
      simp only [SMap.hasKey, List.any_cons, List.any_nil, Bool.or_false,
        beq_eq_false_iff_ne]
      exact Ne.symm hne

theorem SMap.get?_pairList {κ α : Type} [DecidableEq κ] (ks : List κ) (v : α) (k : κ) :
    SMap.get? (ks.map (fun k2 => (k2, v))) k
      = if k ∈ ks then some v else none := by
  induction ks with
  | nil => rfl
  | cons k0 ks ih =>
    by_cases h : k0 = k
    · subst h
      simp [SMap.get?, List.find?]
    · have hstep : (SMap.get? ((k0, v) :: List.map (fun k2 => (k2, v)) ks) k)
          = SMap.get? (List.map (fun k2 => (k2, v)) ks) k := by
        rw [SMap.get?, SMap.get?, List.find?_cons_of_neg _ (by simp [h])]
      rw [List.map_cons, hstep, ih]
      have hmem : (k ∈ k0 :: ks) ↔ (k ∈ ks) := by
        rw [List.mem_cons]
        constructor
        · intro hc
          rcases hc with hc | hc
          · exact absurd hc.symm h
          · exact hc
        · intro hc
          exact Or.inr hc
      by_cases hk : k ∈ ks
      · rw [if_pos hk, if_pos (hmem.mpr hk)]
      · rw [if_neg hk, if_neg (fun hc => hk (hmem.mp hc))]

theorem pathHasStar_of_mem {p : FPath} (h : "*" ∈ p) : pathHasStar p = true :=
  List.any_eq_true.mpr ⟨"*", h, by decide⟩

/-- Claim C4: for a pattern key with a `*` segment whose prefix holds an array
of length `N`, expansion yields exactly one entry per index `0..N-1`, each
binding the very rule-list value of the pattern; indices at or beyond `N`
(such as the index removed when the array shrinks) have no entry; a pattern
over an absent or non-array prefix contributes nothing; and a key without a
wildcard passes through unchanged.  The statement is parametric in the value
tree, so re-expansion after a length change is this theorem at the new tree. -/
theorem expandWildcard_cardinality
    (pat : FPath) (rl : List VRule) (values : Value) (items : List Value)
    (hstar : "*" ∈ pat)
    (harr : getNestedValue values (starPrefix pat) = .vArr items) :
    (expandWildcardPaths [(pat, rl)] values).length = items.length ∧
    (∀ i, i < items.length →
      SMap.get? (expandWildcardPaths [(pat, rl)] values) (substStar pat i) = some rl) ∧
    (∀ i, items.length ≤ i →
      SMap.get? (expandWildcardPaths [(pat, rl)] values) (substStar pat i) = none) ∧
    (∀ values2 : Value,
      (∀ items2 : List Value, getNestedValue values2 (starPrefix pat) ≠ .vArr items2) →
      expandWildcardPaths [(pat, rl)] values2 = []) ∧
    (∀ (key : FPath) (rl2 : List VRule), pathHasStar key = false →
      expandWildcardPaths [(key, rl2)] values = [(key, rl2)]) := by
  have hps : pathHasStar pat = true := pathHasStar_of_mem hstar
  have hinj : Function.Injective (fun i => substStar pat i) :=
    fun a b h => substStar_inj hstar h
  have hexp : expandWildcardPaths [(pat, rl)] values
      = ((List.range items.length).map (fun i => substStar pat i)).map
          (fun k => (k, rl)) := by
    simp only [expandWildcardPaths, List.foldl_cons, List.foldl_nil, hps, if_true,
      harr, SMap.empty]
    rw [← List.foldl_map (fun i => substStar pat i)
      (fun (acc : SMap FPath (List VRule)) k => acc.set k rl)]
    rw [SMap.foldl_set_fresh rl _ [] (fun k _ => rfl)
      (List.Nodup.map hinj (List.nodup_range _))]
    simp
  refine ⟨?_, ?_, ?_, ?_, ?_⟩
  · rw [hexp]
    simp
  · intro i hi
    rw [hexp, SMap.get?_pairList]
    rw [if_pos (List.mem_map.mpr ⟨i, List.mem_range.mpr hi, rfl⟩)]
  · intro i hi
    rw [hexp, SMap.get?_pairList]
    rw [if_neg ?_]
    intro hmem
    obtain ⟨j, hj, hje⟩ := List.mem_map.mp hmem
    have := substStar_inj hstar hje
    subst this
    exact absurd (List.mem_range.mp hj) (by omega)
  · intro values2 hno
    simp only [expandWildcardPaths, List.foldl_cons, List.foldl_nil, hps, if_true,
      SMap.empty]
  · intro key rl2 hkey
    simp only [expandWildcardPaths, List.foldl_cons, List.foldl_nil, hkey,
      if_false, SMap.empty]
    rfl

theorem expandWildcard_cardinality_witness :
    ("*" ∈ (["items", "*", "x"] : FPath)) ∧
    getNestedValue
        (Value.vObj [("items", Value.vArr [Value.vInt 1, Value.vInt 2])])
        (starPrefix ["items", "*", "x"]) = Value.vArr [Value.vInt 1, Value.vInt 2] ∧
    (expandWildcardPaths [((["items", "*", "x"] : FPath), ([] : List VRule))]
        (Value.vObj [("items", Value.vArr [Value.vInt 1, Value.vInt 2])])).length = 2 := by
  have hstar : ("*" ∈ (["items", "*", "x"] : FPath)) := by simp
  have harr : getNestedValue
      (Value.vObj [("items", Value.vArr [Value.vInt 1, Value.vInt 2])])
      (starPrefix ["items", "*", "x"]) = Value.vArr [Value.vInt 1, Value.vInt 2] := by
    simp [starPrefix, getNestedValue, Value.isFalsy, jsIndex, List.find?]
  exact ⟨hstar, harr,
    (expandWildcard_cardinality ["items", "*", "x"] [] _ _ hstar harr).1⟩

theorem sameBut_refl (p : FPath) (s : VMState) : SameBut p s s :=
  ⟨rfl, rfl, rfl, rfl, rfl, rfl, rfl, rfl, rfl, fun _ _ => rfl, fun _ _ => rfl⟩

theorem sameBut_comp {p : FPath} {s t u : VMState}
    (h1 : SameBut p s t) (h2 : SameBut p t u) : SameBut p s u :=
  ⟨h2.cache.trans h1.cache, h2.ctrl.trans h1.ctrl, h2.aborted.trans h1.aborted,
   h2.ntok.trans h1.ntok, h2.values.trans h1.values, h2.rules.trans h1.rules,
   h2.deps.trans h1.deps, h2.hasW.trans h1.hasW, h2.memo.trans h1.memo,
   fun q hq => (h2.errs q hq).trans (h1.errs q hq),
   fun q hq => (h2.valing q hq).trans (h1.valing q hq)⟩

theorem sameBut_mark (p : FPath) (s : VMState) :
    SameBut p s {s with errors := s.errors.set p [],
                        isValidating := s.isValidating.set p true} :=
  ⟨rfl, rfl, rfl, rfl, rfl, rfl, rfl, rfl, rfl,
   fun q hq => SMap.get?_set_ne s.errors [] hq,
   fun q hq => SMap.get?_set_ne s.isValidating true hq⟩

theorem LoopRes.state_consLog (c : RuleCall) (lr : LoopRes) :
    (LoopRes.consLog c lr).state = lr.state := by
  cases lr <;> rfl

theorem LoopRes.log_consLog (c : RuleCall) (lr : LoopRes) :
    (LoopRes.consLog c lr).log = c :: lr.log := by
  cases lr <;> rfl

/-- The rule loop changes no state outside the validated field. -/
theorem ruleLoopSeq_sameBut (ctx : LoopCtx) :
    ∀ (rules : List VRule) (s : VMState) (va : Bool) (idx : Nat),
      SameBut ctx.path s (ruleLoopSeq ctx s va idx rules).state := by
  intro rules
  induction rules with
  | nil => intro s va idx; exact sameBut_refl _ _
  | cons rule rest ih =>
    intro s va idx
    rw [ruleLoopSeq]
    cases hrun : rule.run ctx.value s.values ctx.path with
    | sync res =>
      cases res with
      | error msg => exact sameBut_refl _ _
      | ok r =>
        cases hres : (resolveValidationResult r).isEmpty with
        | true =>
          simp only [hres, if_true, LoopRes.state_consLog]
          exact ih s va (idx + 1)
        | false =>
          simp only [hres, Bool.false_eq_true, if_false]
          exact sameBut_refl _ _
    | async pending =>
      cases va with
      | true =>
        cases pending with
        | error msg => exact sameBut_refl _ _
        | ok r =>
          cases hab : s.abortedToks.contains ctx.tok with
          | true =>
            simp only [Bool.not_true, Bool.false_eq_true, if_false, hab, if_true]
            exact sameBut_refl _ _
          | false =>
            simp only [Bool.not_true, Bool.false_eq_true, if_false, hab]
            cases hres : (resolveValidationResult r).isEmpty with
            | true =>
              simp only [hres, if_true, LoopRes.state_consLog]
              exact ih s true (idx + 1)
            | false =>
              simp only [hres, Bool.false_eq_true, if_false]
              exact sameBut_refl _ _
      | false =>
        simp only [Bool.not_false, if_true]
        have hmark := sameBut_mark ctx.path s
        cases pending with
        | error msg => exact hmark
        | ok r =>
          cases hab : s.abortedToks.contains ctx.tok with
          | true =>
            simp only [hab, if_true]
            exact hmark
          | false =>
            simp only [hab, Bool.false_eq_true, if_false]
            cases hres : (resolveValidationResult r).isEmpty with
            | true =>
              simp only [hres, if_true, LoopRes.state_consLog]
              exact sameBut_comp hmark (ih _ true (idx + 1))
            | false =>
              simp only [hres, Bool.false_eq_true, if_false]
              exact hmark

/-- A run whose token is not aborted completes its loop normally (the early
`return []` of a superseded run is unreachable). -/
theorem ruleLoopSeq_completed (ctx : LoopCtx) :
    ∀ (rules : List VRule) (s : VMState) (va : Bool) (idx : Nat),
      s.abortedToks.contains ctx.tok = false →
      ∃ s' fe lg, ruleLoopSeq ctx s va idx rules = .completed s' fe lg := by
  intro rules
  induction rules with
  | nil => intro s va idx _; exact ⟨s, [], [], rfl⟩
  | cons rule rest ih =>
    intro s va idx hab
    rw [ruleLoopSeq]
    cases hrun : rule.run ctx.value s.values ctx.path with
    | sync res =>
      cases res with
      | error msg => exact ⟨s, _, _, rfl⟩
      | ok r =>
        cases hres : (resolveValidationResult r).isEmpty with
        | true =>
          simp only [hres, if_true]
          obtain ⟨s', fe, lg, heq⟩ := ih s va (idx + 1) hab
          exact ⟨s', fe, _, by rw [heq]; rfl⟩
        | false =>
          simp only [hres, Bool.false_eq_true, if_false]
          exact ⟨s, _, _, rfl⟩
    | async pending =>
      cases va with
      | true =>
        cases pending with
        | error msg => exact ⟨s, _, _, rfl⟩
        | ok r =>
          simp only [Bool.not_true, Bool.false_eq_true, if_false, hab]
          cases hres : (resolveValidationResult r).isEmpty with
          | true =>
            simp only [hres, if_true]
            obtain ⟨s', fe, lg, heq⟩ := ih s true (idx + 1) hab
            exact ⟨s', fe, _, by rw [heq]; rfl⟩
          | false =>
            simp only [hres, Bool.false_eq_true, if_false]
            exact ⟨s, _, _, rfl⟩
      | false =>
        simp only [Bool.not_false, if_true]
        cases pending with
        | error msg => exact ⟨_, _, _, rfl⟩
        | ok r =>
          simp only [hab, Bool.false_eq_true, if_false]
          cases hres : (resolveValidationResult r).isEmpty with
          | true =>
            simp only [hres, if_true]
            obtain ⟨s', fe, lg, heq⟩ :=
              ih {s with errors := s.errors.set ctx.path [], isValidating := s.isValidating.set ctx.path true} true (idx + 1) hab
            exact ⟨s', fe, _, by rw [heq]; rfl⟩
          | false =>
            simp only [hres, Bool.false_eq_true, if_false]
            exact ⟨_, _, _, rfl⟩

/-- Rule invocations within one loop pass carry consecutive indices starting
at the loop's start index (so no list position is invoked twice), and each
invocation carries the run's field path, the value read at the start of the
run, and the live form values. -/
theorem ruleLoopSeq_log (ctx : LoopCtx) :
    ∀ (rules : List VRule) (s : VMState) (va : Bool) (idx : Nat),
      (∃ k, ((ruleLoopSeq ctx s va idx rules).log.map (fun c => c.idx))
        = List.range' idx k) ∧
      (∀ c ∈ (ruleLoopSeq ctx s va idx rules).log,
        c.fieldPath = ctx.path ∧ c.value = ctx.value ∧ c.allValues = s.values) := by
  intro rules
  induction rules with
  | nil =>
    intro s va idx
    exact ⟨⟨0, rfl⟩, fun c hc => absurd hc (by simp [ruleLoopSeq, LoopRes.log])⟩
  | cons rule rest ih =>
    intro s va idx
    have hsingle : ∀ (s' : VMState) (fe : List String),
        (∃ k, ((LoopRes.completed s' fe
            [⟨ctx.path, idx, ctx.value, s.values⟩]).log.map (fun c => c.idx))
          = List.range' idx k) ∧
        (∀ c ∈ (LoopRes.completed s' fe
            [⟨ctx.path, idx, ctx.value, s.values⟩]).log,
          c.fieldPath = ctx.path ∧ c.value = ctx.value ∧ c.allValues = s.values) := by
      intro s' fe
      refine ⟨⟨1, rfl⟩, ?_⟩
      intro c hc
      rcases List.mem_singleton.mp hc with rfl
      exact ⟨rfl, rfl, rfl⟩
    have hsingleAb : ∀ (s' : VMState),
        (∃ k, ((LoopRes.abortedEarly s'
            [⟨ctx.path, idx, ctx.value, s.values⟩]).log.map (fun c => c.idx))
          = List.range' idx k) ∧
        (∀ c ∈ (LoopRes.abortedEarly s'
            [⟨ctx.path, idx, ctx.value, s.values⟩]).log,
          c.fieldPath = ctx.path ∧ c.value = ctx.value ∧ c.allValues = s.values) := by
      intro s'
      refine ⟨⟨1, rfl⟩, ?_⟩
      intro c hc
      rcases List.mem_singleton.mp hc with rfl
      exact ⟨rfl, rfl, rfl⟩
    have hcons : ∀ (s1 : VMState), s1.values = s.values →
        (∃ k, ((LoopRes.consLog ⟨ctx.path, idx, ctx.value, s.values⟩
            (ruleLoopSeq ctx s1 true (idx + 1) rest)).log.map (fun c => c.idx))
          = List.range' idx k) ∧
        (∀ c ∈ (LoopRes.consLog ⟨ctx.path, idx, ctx.value, s.values⟩
            (ruleLoopSeq ctx s1 true (idx + 1) rest)).log,
          c.fieldPath = ctx.path ∧ c.value = ctx.value ∧ c.allValues = s.values) := by
      intro s1 hv
      obtain ⟨⟨k, hk⟩, hall⟩ := ih s1 true (idx + 1)
      rw [LoopRes.log_consLog]
      refine ⟨⟨k + 1, by rw [List.map_cons, hk, List.range'_succ]⟩, ?_⟩
      intro c hc
      rcases List.mem_cons.mp hc with rfl | hc
      · exact ⟨rfl, rfl, rfl⟩
      · obtain ⟨h1, h2, h3⟩ := hall c hc
        exact ⟨h1, h2, h3.trans hv⟩
    rw [ruleLoopSeq]
    cases hrun : rule.run ctx.value s.values ctx.path with
    | sync res =>
      cases res with
      | error msg => exact hsingle s [msg]
      | ok r =>
        cases hres : (resolveValidationResult r).isEmpty with
        | true =>
          simp only [hres, if_true]
          obtain ⟨⟨k, hk⟩, hall⟩ := ih s va (idx + 1)
          rw [LoopRes.log_consLog]
          refine ⟨⟨k + 1, by rw [List.map_cons, hk, List.range'_succ]⟩, ?_⟩
          intro c hc
          rcases List.mem_cons.mp hc with rfl | hc
          · exact ⟨rfl, rfl, rfl⟩
          · exact hall c hc
        | false =>
          simp only [hres, Bool.false_eq_true, if_false]
          exact hsingle s (resolveValidationResult r)
    | async pending =>
      cases va with
      | true =>
        cases pending with
        | error msg => exact hsingle s [msg]
        | ok r =>
          cases hab : s.abortedToks.contains ctx.tok with
          | true =>
            simp only [Bool.not_true, Bool.false_eq_true, if_false, hab, if_true]
            exact hsingleAb s
          | false =>
            simp only [Bool.not_true, Bool.false_eq_true, if_false, hab]
            cases hres : (resolveValidationResult r).isEmpty with
            | true =>
              simp only [hres, if_true]
              exact hcons s rfl
            | false =>
              simp only [hres, Bool.false_eq_true, if_false]
              exact hsingle s (resolveValidationResult r)
      | false =>
        simp only [Bool.not_false, if_true]
        cases pending with
        | error msg => exact hsingle _ [msg]
        | ok r =>
          cases hab : s.abortedToks.contains ctx.tok with
          | true =>
            simp only [hab, if_true]
            exact hsingleAb _
          | false =>
            simp only [hab, Bool.false_eq_true, if_false]
            cases hres : (resolveValidationResult r).isEmpty with
            | true =>
              simp only [hres, if_true]
              exact hcons _ rfl
            | false =>
              simp only [hres, Bool.false_eq_true, if_false]
              exact hsingle _ (resolveValidationResult r)

theorem installToken_spec (s0 : VMState) (p : FPath) :
    (installToken s0 p).2 = s0.nextTok ∧
    (installToken s0 p).1.nextTok = s0.nextTok + 1 ∧
    (installToken s0 p).1.abortControllers.get? p = some s0.nextTok ∧
    (∀ q, q ≠ p →
      (installToken s0 p).1.abortControllers.get? q = s0.abortControllers.get? q) ∧
    (installToken s0 p).1.validationCache = s0.validationCache ∧
    (installToken s0 p).1.errors = s0.errors ∧
    (installToken s0 p).1.isValidating = s0.isValidating ∧
    (installToken s0 p).1.values = s0.values ∧
    (installToken s0 p).1.rules = s0.rules ∧
    (installToken s0 p).1.fieldDependencies = s0.fieldDependencies ∧
    (installToken s0 p).1.hasWildcardRules = s0.hasWildcardRules ∧
    (installToken s0 p).1.expandedRulesCache = s0.expandedRulesCache ∧
    (∀ t ∈ (installToken s0 p).1.abortedToks,
      t ∈ s0.abortedToks ∨ s0.abortControllers.get? p = some t) := by
  rw [installToken]
  cases hc : s0.abortControllers.get? p with
  | none =>
    refine ⟨rfl, rfl, SMap.get?_set_self _ _ _,
      fun q hq => SMap.get?_set_ne _ _ hq, rfl, rfl, rfl, rfl, rfl, rfl, rfl, rfl, ?_⟩
    intro t ht
    exact Or.inl ht
  | some t0 =>
    refine ⟨rfl, rfl, SMap.get?_set_self _ _ _,
      fun q hq => SMap.get?_set_ne _ _ hq, rfl, rfl, rfl, rfl, rfl, rfl, rfl, rfl, ?_⟩
    intro t ht
    rcases List.mem_cons.mp ht with heq | ht2
    · right
      rw [heq]
    · exact Or.inl ht2

theorem installToken_tokensOk {s0 : VMState} (p : FPath) (htok : TokensOk s0) :
    TokensOk (installToken s0 p).1 ∧
    (installToken s0 p).1.abortedToks.contains (installToken s0 p).2 = false := by
  obtain ⟨htok2, hnext, hgetp, hgetq, _, _, _, _, _, _, _, _, habo⟩ :=
    installToken_spec s0 p
  constructor
  · constructor
    · intro t ht
      rcases habo t ht with hmem | hctl
      · have := htok.1 t hmem
        omega
      · have := htok.2 p t hctl
        omega
    · intro q t hget
      by_cases hq : q = p
      · subst hq
        rw [hgetp] at hget
        injection hget with h
        omega
      · rw [hgetq q hq] at hget
        have := htok.2 q t hget
        omega
  · rw [htok2]
    rw [Bool.eq_false_iff]
    intro hcon
    have hmem : s0.nextTok ∈ (installToken s0 p).1.abortedToks := by
      simpa [List.contains] using hcon
    rcases habo _ hmem with hmemA | hctl
    · exact absurd (htok.1 _ hmemA) (by omega)
    · exact absurd (htok.2 p _ hctl) (by omega)

/-! ## Rule resolution stability -/

theorem resolveRulesOf_congr (s t : VMState) (p : FPath)
    (h1 : t.rules = s.rules) (h2 : t.values = s.values)
    (h3 : t.hasWildcardRules = s.hasWildcardRules)
    (h4 : t.expandedRulesCache = s.expandedRulesCache) :
    (resolveRulesOf t p).1 = (resolveRulesOf s p).1 ∧
    (resolveRulesOf t p).2.expandedRulesCache
      = (resolveRulesOf s p).2.expandedRulesCache := by
  rw [resolveRulesOf, resolveRulesOf, h3]
  cases hw : s.hasWildcardRules with
  | false =>
    rw [if_neg (by simp), if_neg (by simp)]
    exact ⟨by rw [h1], h4⟩
  | true =>
    rw [if_pos rfl, if_pos rfl, getExpandedRules, getExpandedRules, h4]
    cases hm : s.expandedRulesCache with
    | some m =>
      refine ⟨?_, ?_⟩
      · show (SMap.get? m p).getD ((SMap.get? t.rules p).getD [])
            = (SMap.get? m p).getD ((SMap.get? s.rules p).getD [])
        rw [h1]
      · show t.expandedRulesCache = s.expandedRulesCache
        exact h4
    | none =>
      refine ⟨?_, ?_⟩
      · show (SMap.get? (expandWildcardPaths t.rules t.values) p).getD
              ((SMap.get? t.rules p).getD [])
            = (SMap.get? (expandWildcardPaths s.rules s.values) p).getD
              ((SMap.get? s.rules p).getD [])
        rw [h1, h2]
      · show (some (expandWildcardPaths t.rules t.values)
              : Option (SMap FPath (List VRule)))
            = some (expandWildcardPaths s.rules s.values)
        rw [h1, h2]

theorem resolveRulesOf_frame (s : VMState) (p : FPath) :
    (resolveRulesOf s p).2.validationCache = s.validationCache ∧
    (resolveRulesOf s p).2.errors = s.errors ∧
    (resolveRulesOf s p).2.isValidating = s.isValidating ∧
    (resolveRulesOf s p).2.abortControllers = s.abortControllers ∧
    (resolveRulesOf s p).2.abortedToks = s.abortedToks ∧
    (resolveRulesOf s p).2.nextTok = s.nextTok ∧
    (resolveRulesOf s p).2.values = s.values ∧
    (resolveRulesOf s p).2.rules = s.rules ∧
    (resolveRulesOf s p).2.fieldDependencies = s.fieldDependencies ∧
    (resolveRulesOf s p).2.hasWildcardRules = s.hasWildcardRules := by
  rw [resolveRulesOf]
  cases hw : s.hasWildcardRules with
  | false =>
    rw [if_neg (by simp)]
    exact ⟨rfl, rfl, rfl, rfl, rfl, rfl, rfl, rfl, rfl, hw⟩
  | true =>
    rw [if_pos rfl, getExpandedRules]
    cases hm : s.expandedRulesCache with
    | some m => exact ⟨rfl, rfl, rfl, rfl, rfl, rfl, rfl, rfl, rfl, hw⟩
    | none => exact ⟨rfl, rfl, rfl, rfl, rfl, rfl, rfl, rfl, rfl, hw⟩

/-- A second resolution against the memo the first one left (with rules,
values and the wildcard flag unchanged) yields the same rule list. -/
theorem resolveRulesOf_stable (s t : VMState) (p : FPath)
    (h1 : t.rules = s.rules) (h2 : t.values = s.values)
    (h3 : t.hasWildcardRules = s.hasWildcardRules)
    (h4 : t.expandedRulesCache = (resolveRulesOf s p).2.expandedRulesCache) :
    (resolveRulesOf t p).1 = (resolveRulesOf s p).1 := by
  rw [resolveRulesOf, resolveRulesOf, h3]
  cases hw : s.hasWildcardRules with
  | false =>
    rw [if_neg (by simp), if_neg (by simp), h1]
  | true =>
    rw [if_pos rfl, if_pos rfl, getExpandedRules, getExpandedRules]
    have h4' := h4
    rw [resolveRulesOf, hw, if_pos rfl, getExpandedRules] at h4'
    cases hm : s.expandedRulesCache with
    | some m =>
      rw [hm] at h4'
      have h4m : t.expandedRulesCache = some m := h4'.trans hm
      rw [h4m]
      show (SMap.get? m p).getD ((SMap.get? t.rules p).getD [])
          = (SMap.get? m p).getD ((SMap.get? s.rules p).getD [])
      rw [h1]
    | none =>
      rw [hm] at h4'
      have h4m : t.expandedRulesCache
          = some (expandWildcardPaths s.rules s.values) := h4'
      rw [h4m]
      show (SMap.get? (expandWildcardPaths s.rules s.values) p).getD
            ((SMap.get? t.rules p).getD [])
          = (SMap.get? (expandWildcardPaths s.rules s.values) p).getD
            ((SMap.get? s.rules p).getD [])
      rw [h1]

/-! ## Prelude characterization -/

theorem validateFieldPrelude_miss (s0 : VMState) (p : FPath)
    (hcache : s0.validationCache.get? p = none)
    (hrules : ((resolveRulesOf s0 p).1).isEmpty = false) :
    ∃ sB : VMState,
      validateFieldPrelude s0 p = PreludeRes.toLoop
        ⟨p, s0.nextTok, readFieldValue s0.values p⟩
        (depOf s0.fieldDependencies p).isSome
        (depsValuesOf s0.fieldDependencies s0.values p)
        ((resolveRulesOf s0 p).1) sB ∧
      sB.validationCache = s0.validationCache ∧
      sB.errors = s0.errors ∧
      sB.isValidating = s0.isValidating ∧
      sB.abortControllers.get? p = some s0.nextTok ∧
      (∀ q, q ≠ p → sB.abortControllers.get? q = s0.abortControllers.get? q) ∧
      sB.nextTok = s0.nextTok + 1 ∧
      sB.values = s0.values ∧
      sB.rules = s0.rules ∧
      sB.fieldDependencies = s0.fieldDependencies ∧
      sB.hasWildcardRules = s0.hasWildcardRules ∧
      sB.expandedRulesCache = (resolveRulesOf s0 p).2.expandedRulesCache ∧
      (∀ t ∈ sB.abortedToks,
        t ∈ s0.abortedToks ∨ s0.abortControllers.get? p = some t) ∧
      (TokensOk s0 →
        TokensOk sB ∧ sB.abortedToks.contains s0.nextTok = false) := by
  obtain ⟨hit2, hitnext, hitp, hitq, hitc, hite, hitv, hitvals, hitr, hitd,
    hithw, hitm, hitab⟩ := installToken_spec s0 p
  simp only [validateFieldPrelude]
  set sA := (installToken s0 p).1 with hsA
  obtain ⟨hcg1, hcg2⟩ := resolveRulesOf_congr s0 sA p hitr hitvals hithw hitm
  obtain ⟨hf1, hf2, hf3, hf4, hf5, hf6, hf7, hf8, hf9, hf10⟩ :=
    resolveRulesOf_frame sA p
  set sB := (resolveRulesOf sA p).2 with hsB
  have hBvals : sB.values = s0.values := hf7.trans hitvals
  have hBdeps : sB.fieldDependencies = s0.fieldDependencies := hf9.trans hitd
  have hBcache : sB.validationCache = s0.validationCache := hf1.trans hitc
  have hBctrl : sB.abortControllers = sA.abortControllers := hf4
  have hBtoks : sB.abortedToks = sA.abortedToks := hf5
  have hBnext : sB.nextTok = sA.nextTok := hf6
  have hmain : validateFieldPrelude s0 p = PreludeRes.toLoop
      ⟨p, s0.nextTok, readFieldValue s0.values p⟩
      (depOf s0.fieldDependencies p).isSome
      (depsValuesOf s0.fieldDependencies s0.values p)
      ((resolveRulesOf s0 p).1) sB := by
    simp only [validateFieldPrelude]
    rw [← hsA, ← hsB, hcg1, hit2]
    rw [if_neg (by rw [hrules]; exact Bool.false_ne_true)]
    rw [hBdeps, hBvals, hBcache, hcache]
  have hctrlp : sB.abortControllers.get? p = some s0.nextTok := by
    rw [hBctrl]
    exact hitp
  have hctrlq : ∀ q, q ≠ p →
      sB.abortControllers.get? q = s0.abortControllers.get? q := by
    intro q hq
    rw [hBctrl]
    exact hitq q hq
  have hnext2 : sB.nextTok = s0.nextTok + 1 := by rw [hBnext, hitnext]
  have habo2 : ∀ t ∈ sB.abortedToks,
      t ∈ s0.abortedToks ∨ s0.abortControllers.get? p = some t := by
    intro t ht
    rw [hBtoks] at ht
    exact hitab t ht
  have htokB : TokensOk s0 →
      TokensOk sB ∧ sB.abortedToks.contains s0.nextTok = false := by
    intro htok
    obtain ⟨htokA, hcontA⟩ := installToken_tokensOk p htok
    rw [← hsA] at htokA hcontA
    refine ⟨⟨?_, ?_⟩, ?_⟩
    · intro t ht
      rw [hBtoks] at ht
      rw [hBnext]
      exact htokA.1 t ht
    · intro q t hget
      rw [hBctrl] at hget
      rw [hBnext]
      exact htokA.2 q t hget
    · rw [hBtoks, ← hit2]
      exact hcontA
  exact ⟨sB, hmain, hBcache, hf2.trans hite, hf3.trans hitv, hctrlp, hctrlq,
    hnext2, hBvals, hf8.trans hitr, hBdeps, hf10.trans hithw, hcg2, habo2, htokB⟩

theorem validateFieldPrelude_hit (s0 : VMState) (p : FPath) (entry : CacheEntry)
    (hcache : s0.validationCache.get? p = some entry)
    (hrules : ((resolveRulesOf s0 p).1).isEmpty = false)
    (hv : deepEqual entry.value (readFieldValue s0.values p) = true)
    (hd : deepEqual (entry.depsValues.getD (.vObj []))
        (depsValuesOf s0.fieldDependencies s0.values p) = true) :
    ∃ sB : VMState,
      validateFieldPrelude s0 p = PreludeRes.done entry.errors sB ∧
      sB.errors.get? p = some entry.errors ∧
      (∀ q, q ≠ p → sB.errors.get? q = s0.errors.get? q) ∧
      sB.validationCache = s0.validationCache ∧
      sB.isValidating = s0.isValidating ∧
      sB.values = s0.values := by
  obtain ⟨hit2, hitnext, hitp, hitq, hitc, hite, hitv, hitvals, hitr, hitd,
    hithw, hitm, hitab⟩ := installToken_spec s0 p
  simp only [validateFieldPrelude]
  set sA := (installToken s0 p).1 with hsA
  obtain ⟨hcg1, hcg2⟩ := resolveRulesOf_congr s0 sA p hitr hitvals hithw hitm
  obtain ⟨hf1, hf2, hf3, hf4, hf5, hf6, hf7, hf8, hf9, hf10⟩ :=
    resolveRulesOf_frame sA p
  set sB := (resolveRulesOf sA p).2 with hsB
  have hBvals : sB.values = s0.values := hf7.trans hitvals
  have hBdeps : sB.fieldDependencies = s0.fieldDependencies := hf9.trans hitd
  have hBcache : sB.validationCache = s0.validationCache := hf1.trans hitc
  have hBerrs : sB.errors = s0.errors := hf2.trans hite
  have hBctrl : sB.abortControllers = sA.abortControllers := hf4
  rw [hcg1, hit2]
  rw [if_neg (by rw [hrules]; exact Bool.false_ne_true)]
  rw [hBdeps, hBvals, hBcache, hcache]
  simp only [hv, hd, Bool.and_self, if_true, hBctrl, hitp, beq_self_eq_true]
  refine ⟨_, rfl, ?_, ?_, rfl, hf3.trans hitv, rfl⟩
  · show (sB.errors.set p entry.errors).get? p = some entry.errors
    exact SMap.get?_set_self _ _ _
  · intro q hq
    show (sB.errors.set p entry.errors).get? q = s0.errors.get? q
    rw [SMap.get?_set_ne _ _ hq, hBerrs]

theorem ruleLoopSeq_log_ne_nil (ctx : LoopCtx) (rule : VRule) (rest : List VRule)
    (s : VMState) (va : Bool) (idx : Nat) :
    (ruleLoopSeq ctx s va idx (rule :: rest)).log ≠ [] := by
  rw [ruleLoopSeq]
  cases hrun : rule.run ctx.value s.values ctx.path with
  | sync res =>
    cases res with
    | error msg => exact fun h => List.cons_ne_nil _ _ h
    | ok r =>
      cases hres : (resolveValidationResult r).isEmpty with
      | true =>
        simp only [hres, if_true, LoopRes.log_consLog]
        exact List.cons_ne_nil _ _
      | false =>
        simp only [hres, Bool.false_eq_true, if_false]
        exact List.cons_ne_nil _ _
  | async pending =>
    cases va with
    | true =>
      cases pending with
      | error msg => exact List.cons_ne_nil _ _
      | ok r =>
        cases hab : s.abortedToks.contains ctx.tok with
        | true =>
          simp only [Bool.not_true, Bool.false_eq_true, if_false, hab, if_true]
          exact List.cons_ne_nil _ _
        | false =>
          simp only [Bool.not_true, Bool.false_eq_true, if_false, hab]
          cases hres : (resolveValidationResult r).isEmpty with
          | true =>
            simp only [hres, if_true, LoopRes.log_consLog]
            exact List.cons_ne_nil _ _
          | false =>
            simp only [hres, Bool.false_eq_true, if_false]
            exact List.cons_ne_nil _ _
    | false =>
      simp only [Bool.not_false, if_true]
      cases pending with
      | error msg => exact List.cons_ne_nil _ _
      | ok r =>
        cases hab : s.abortedToks.contains ctx.tok with
        | true =>
          simp only [hab, if_true]
          exact List.cons_ne_nil _ _
        | false =>
          simp only [hab, Bool.false_eq_true, if_false]
          cases hres : (resolveValidationResult r).isEmpty with
          | true =>
            simp only [hres, if_true, LoopRes.log_consLog]
            exact List.cons_ne_nil _ _
          | false =>
            simp only [hres, Bool.false_eq_true, if_false]
            exact List.cons_ne_nil _ _

/-- One complete fresh (cache-missing) `validateField` run: it finishes
without supersession, writes the cache entry (cloned value and dependency
snapshot plus the final error list), writes the error store at its own path
only, clears its validating flag and controller, and invokes rules with
strictly increasing indices. -/
theorem validateFieldSeq_miss (s0 : VMState) (p : FPath)
    (htok : TokensOk s0)
    (hcache : s0.validationCache.get? p = none)
    (hrules : ((resolveRulesOf s0 p).1).isEmpty = false) :
    ∃ fe sF lg,
      validateFieldSeq s0 p = (fe, sF, lg) ∧
      sF.validationCache.get? p = some
        ⟨deepClone (readFieldValue s0.values p), fe,
         if (depOf s0.fieldDependencies p).isSome = true
           then some (deepClone (depsValuesOf s0.fieldDependencies s0.values p))
           else none⟩ ∧
      (∀ q, q ≠ p → sF.validationCache.get? q = s0.validationCache.get? q) ∧
      sF.errors.get? p = some fe ∧
      (∀ q, q ≠ p → sF.errors.get? q = s0.errors.get? q) ∧
      sF.isValidating.get? p = some false ∧
      (∀ q, q ≠ p → sF.isValidating.get? q = s0.isValidating.get? q) ∧
      sF.values = s0.values ∧
      sF.rules = s0.rules ∧
      sF.fieldDependencies = s0.fieldDependencies ∧
      sF.hasWildcardRules = s0.hasWildcardRules ∧
      sF.expandedRulesCache = (resolveRulesOf s0 p).2.expandedRulesCache ∧
      sF.abortControllers.get? p = none ∧
      (∀ q, q ≠ p → sF.abortControllers.get? q = s0.abortControllers.get? q) ∧
      TokensOk sF ∧
      (∃ k, lg.map (fun c => c.idx) = List.range' 0 k) ∧
      lg ≠ [] ∧
      (∀ c ∈ lg, c.fieldPath = p ∧ c.value = readFieldValue s0.values p ∧
        c.allValues = s0.values) := by
  obtain ⟨sB, hpre, hBcache, hBerrs, hBval, hBctrlp, hBctrlq, hBnext, hBvals,
    hBrules, hBdeps, hBhw, hBmemo, hBabo, hBtok⟩ :=
    validateFieldPrelude_miss s0 p hcache hrules
  obtain ⟨htokB, hcontB⟩ := hBtok htok
  obtain ⟨sC, fe, lg, hloop⟩ := ruleLoopSeq_completed
    ⟨p, s0.nextTok, readFieldValue s0.values p⟩
    ((resolveRulesOf s0 p).1) sB false 0 hcontB
  have hsame := ruleLoopSeq_sameBut ⟨p, s0.nextTok, readFieldValue s0.values p⟩
    ((resolveRulesOf s0 p).1) sB false 0
  rw [hloop] at hsame
  have hsame : SameBut p sB sC := hsame
  have hlog := ruleLoopSeq_log ⟨p, s0.nextTok, readFieldValue s0.values p⟩
    ((resolveRulesOf s0 p).1) sB false 0
  rw [hloop] at hlog
  have hlog : (∃ k, (lg.map (fun c => c.idx)) = List.range' 0 k) ∧
      (∀ c ∈ lg, c.fieldPath = p ∧ c.value = readFieldValue s0.values p ∧
        c.allValues = sB.values) := hlog
  have hlgne : lg ≠ [] := by
    obtain ⟨r0, rest, hr⟩ := List.exists_cons_of_ne_nil
      (List.isEmpty_eq_false.mp hrules)
    have := ruleLoopSeq_log_ne_nil ⟨p, s0.nextTok, readFieldValue s0.values p⟩
      r0 rest sB false 0
    rw [← hr, hloop] at this
    exact this
  simp only [validateFieldSeq, hpre, hcontB, Bool.false_eq_true, if_false, hloop]
  simp only [finishRun]
  have hctrlC : sC.abortControllers.get? p = some s0.nextTok := by
    rw [hsame.ctrl]
    exact hBctrlp
  rw [finallyAct]
  rw [if_pos (by show (sC.abortControllers.get? p == some s0.nextTok) = true; rw [hctrlC]; exact beq_self_eq_true _)]
  refine ⟨fe, _, lg, rfl, ?_, ?_, ?_, ?_, ?_, ?_, ?_, ?_, ?_, ?_, ?_, ?_, ?_,
    ?_, ⟨(hlog.1).choose, (hlog.1).choose_spec⟩, hlgne, ?_⟩
  · show (sC.validationCache.set p _).get? p = _
    rw [SMap.get?_set_self]
  · intro q hq
    show (sC.validationCache.set p _).get? q = _
    rw [SMap.get?_set_ne _ _ hq, hsame.cache, hBcache]
  · show (sC.errors.set p fe).get? p = some fe
    rw [SMap.get?_set_self]
  · intro q hq
    show (sC.errors.set p fe).get? q = _
    rw [SMap.get?_set_ne _ _ hq, hsame.errs q hq, hBerrs]
  · show (sC.isValidating.set p false).get? p = some false
    rw [SMap.get?_set_self]
  · intro q hq
    show (sC.isValidating.set p false).get? q = _
    rw [SMap.get?_set_ne _ _ hq, hsame.valing q hq, hBval]
  · show sC.values = s0.values
    rw [hsame.values, hBvals]
  · show sC.rules = s0.rules
    rw [hsame.rules, hBrules]
  · show sC.fieldDependencies = s0.fieldDependencies
    rw [hsame.deps, hBdeps]
  · show sC.hasWildcardRules = s0.hasWildcardRules
    rw [hsame.hasW, hBhw]
  · show sC.expandedRulesCache = _
    rw [hsame.memo, hBmemo]
  · show (sC.abortControllers.erase p).get? p = none
    rw [SMap.get?_erase_self]
  · intro q hq
    show (sC.abortControllers.erase p).get? q = _
    rw [SMap.get?_erase_ne _ hq, hsame.ctrl, hBctrlq q hq]
  · constructor
    · intro t ht
      show t < sC.nextTok
      have ht2 : t ∈ sB.abortedToks := hsame.aborted ▸ ht
      rw [hsame.ntok]
      exact htokB.1 t ht2
    · intro q t hget
      show t < sC.nextTok
      have hget2 : (sC.abortControllers.erase p).get? q = some t := hget
      by_cases hq : q = p
      · rw [hq, SMap.get?_erase_self] at hget2
        cases hget2
      · rw [SMap.get?_erase_ne _ hq, hsame.ctrl] at hget2
        rw [hsame.ntok]
        exact htokB.2 q t hget2
  · intro c hc
    obtain ⟨h1, h2, h3⟩ := hlog.2 c hc
    exact ⟨h1, h2, h3.trans hBvals⟩

/-- C1: for a field whose resolved rule list is non-empty and whose cache has
no entry yet, a first `validateField` run completes and fills the cache; with
the value and dependency snapshot unchanged, a second `validateField` call is
a pure cache hit: it invokes no rule (its log is empty), copies the cached
error list into the error store for the path and returns that same list,
while the first run invoked each rule position exactly once. -/
theorem validateField_cache_stability (s0 : VMState) (p : FPath)
    (htok : TokensOk s0)
    (hcache : SMap.get? s0.validationCache p = none)
    (hrules : ((resolveRulesOf s0 p).1).isEmpty = false)
    (hwfv : wfValue (readFieldValue s0.values p) = true)
    (hwfd : wfValue (depsValuesOf s0.fieldDependencies s0.values p) = true) :
    ∃ fe s1 lg1 s2,
      validateFieldSeq s0 p = (fe, s1, lg1) ∧
      lg1 ≠ [] ∧
      (lg1.map (fun c => c.idx)).Nodup ∧
      (∃ k, lg1.map (fun c => c.idx) = List.range' 0 k) ∧
      validateFieldSeq s1 p = (fe, s2, []) ∧
      SMap.get? s2.errors p = some fe ∧
      s2.values = s0.values := by
  obtain ⟨fe, sF, lg, hrun, hcache1, hcacheq, herrp, herrq, hvalp, hvalq,
    hvals, hrules1, hdeps1, hhw1, hmemo1, hctrlp, hctrlq, htokF, hlgmap,
    hlgne, hlgmem⟩ := validateFieldSeq_miss s0 p htok hcache hrules
  have hres : (resolveRulesOf sF p).1 = (resolveRulesOf s0 p).1 :=
    resolveRulesOf_stable s0 sF p hrules1 hvals hhw1 hmemo1
  have hrules2 : ((resolveRulesOf sF p).1).isEmpty = false := by
    rw [hres]; exact hrules
  have hv : deepEqual (deepClone (readFieldValue s0.values p))
      (readFieldValue sF.values p) = true := by
    rw [hvals]
    exact deepEqual_deepClone _ hwfv
  have hd : deepEqual
      ((if (depOf s0.fieldDependencies p).isSome = true
          then some (deepClone (depsValuesOf s0.fieldDependencies s0.values p))
          else none).getD (.vObj []))
      (depsValuesOf sF.fieldDependencies sF.values p) = true := by
    rw [hdeps1, hvals]
    cases hdep : depOf s0.fieldDependencies p with
    | some d =>
      simp only [Option.isSome_some, if_true, Option.getD_some]
      exact deepEqual_deepClone _ hwfd
    | none =>
      simp only [Option.isSome_none, Bool.false_eq_true, if_false,
        Option.getD_none]
      have hdv : depsValuesOf s0.fieldDependencies s0.values p = .vObj [] := by
        rw [depsValuesOf, hdep]
      rw [hdv]
      simp [deepEqual, deepEqualFields]
  obtain ⟨s2, hpre2, herr2p, herr2q, hcache2, hval2, hvals2⟩ :=
    validateFieldPrelude_hit sF p
      ⟨deepClone (readFieldValue s0.values p), fe,
       if (depOf s0.fieldDependencies p).isSome = true
         then some (deepClone (depsValuesOf s0.fieldDependencies s0.values p))
         else none⟩ hcache1 hrules2 hv hd
  have hnd : (lg.map (fun c => c.idx)).Nodup := by
    obtain ⟨k, hk⟩ := hlgmap
    rw [hk]
    exact List.nodup_range' 0 k
  refine ⟨fe, sF, lg, s2, hrun, hlgne, hnd, hlgmap, ?_, herr2p, hvals2.trans hvals⟩
  show validateFieldSeq sF p = (fe, s2, [])
  simp only [validateFieldSeq, hpre2]

/-- The hypotheses of the cache-stability theorem hold at a concrete state
(one string field, one `minLength` rule, no dependencies), so its conclusion
is realized there. -/
theorem validateField_cache_stability_witness :
    (TokensOk c1State ∧
     SMap.get? c1State.validationCache ["name"] = none ∧
     ((resolveRulesOf c1State ["name"]).1).isEmpty = false ∧
     wfValue (readFieldValue c1State.values ["name"]) = true ∧
     wfValue (depsValuesOf c1State.fieldDependencies c1State.values
       ["name"]) = true) ∧
    (∃ fe s1 lg1 s2,
      validateFieldSeq c1State ["name"] = (fe, s1, lg1) ∧
      lg1 ≠ [] ∧
      (lg1.map (fun c => c.idx)).Nodup ∧
      (∃ k, lg1.map (fun c => c.idx) = List.range' 0 k) ∧
      validateFieldSeq s1 ["name"] = (fe, s2, []) ∧
      SMap.get? s2.errors ["name"] = some fe ∧
      s2.values = c1State.values) := by
  have htok : TokensOk c1State :=
    ⟨fun t ht => absurd ht (List.not_mem_nil t),
     fun q t h => by simp [SMap.get?, c1State] at h⟩
  have hcache : SMap.get? c1State.validationCache ["name"] = none := rfl
  have hrules : ((resolveRulesOf c1State ["name"]).1).isEmpty = false := rfl
  have hwfv : wfValue (readFieldValue c1State.values ["name"]) = true := by
    show wfValue (.vStr "x") = true
    simp [wfValue]
  have hwfd : wfValue (depsValuesOf c1State.fieldDependencies c1State.values
      ["name"]) = true := by
    show wfValue (.vObj []) = true
    simp [wfValue, nodupKeys, wfFields]
  exact ⟨⟨htok, hcache, hrules, hwfv, hwfd⟩,
    validateField_cache_stability c1State ["name"] htok hcache hrules hwfv hwfd⟩

theorem SMap.mem_values_of_get? {κ α : Type} [DecidableEq κ] {m : SMap κ α}
    {k : κ} {v : α} (h : SMap.get? m k = some v) : v ∈ SMap.values m := by
  rw [SMap.get?] at h
  cases hf : m.find? (fun q => q.1 == k) with
  | none => rw [hf] at h; cases h
  | some q =>
    rw [hf] at h
    have hq : q ∈ m := List.mem_of_find?_eq_some hf
    rw [SMap.values]
    exact List.mem_map.mpr ⟨q, hq, Option.some.inj h⟩

set_option maxHeartbeats 2000000 in
/-- C3 counterexample: `validateForm` does not exclude conditionally inactive
fields.  At `c3State` the `company` field is conditionally inactive (its
`requiredIf` condition is false) and its `minLength` rule leaves the only
non-empty error list, yet `validateForm` resolves `false`; the state
manager's `isValid` aggregate, which does exclude inactive fields, computes
`true` on the very same final state. -/
theorem validateForm_inactive_counterexample :
    isConditionallyInactive c3State.rules c3State.values ["company"] = true ∧
    SMap.get? (validateFormModel c3State []).2.1.errors ["company"]
      = some ["Company name too short"] ∧
    (validateFormModel c3State []).1 = false ∧
    isValidComputed (validateFormModel c3State []).2.1 = true := by
  have hlen : ¬("ab".isEmpty = true ∨ 5 ≤ "ab".length) := by decide
  have he1 : "ab".isEmpty = false := by decide
  have he2 : "Company name too short".isEmpty = false := by decide
  have hl2 : "ab".length = 2 := by decide
  refine ⟨?_, ?_, ?_, ?_⟩
  · simp [isConditionallyInactive, c3State, SMap.get?, requiredIfRule,
      minLengthRule, jsStrictEq, getNestedValue, jsIndex, Value.isFalsy]
  · simp [validateFormModel, c3State, getExpandedRules, expandWildcardPaths,
      pathHasStar, SMap.empty, SMap.set, SMap.get?, SMap.keys, SMap.values,
      SMap.erase, validateFieldSeq, validateFieldPrelude, installToken,
      resolveRulesOf, readFieldValue, pathIsNested, jsIndex, getNestedValue,
      depOf, depsValuesOf, ruleLoopSeq, LoopRes.consLog, LoopRes.state, LoopRes.log,
      requiredIfRule, minLengthRule,
      resolveValidationResult, jsStrictEq, resolveWildcard,
      isNullUndefOrEmptyStr, jsToString, finishRun, finallyAct, deepClone,
      Value.isFalsy, hlen, he1, he2, hl2]
  · simp [validateFormModel, c3State, getExpandedRules, expandWildcardPaths,
      pathHasStar, SMap.empty, SMap.set, SMap.get?, SMap.keys, SMap.values,
      SMap.erase, validateFieldSeq, validateFieldPrelude, installToken,
      resolveRulesOf, readFieldValue, pathIsNested, jsIndex, getNestedValue,
      depOf, depsValuesOf, ruleLoopSeq, LoopRes.consLog, LoopRes.state, LoopRes.log,
      requiredIfRule, minLengthRule,
      resolveValidationResult, jsStrictEq, resolveWildcard,
      isNullUndefOrEmptyStr, jsToString, finishRun, finallyAct, deepClone,
      Value.isFalsy, hlen, he1, he2, hl2]
  · simp [validateFormModel, c3State, getExpandedRules, expandWildcardPaths,
      pathHasStar, SMap.empty, SMap.set, SMap.get?, SMap.keys, SMap.values,
      SMap.erase, validateFieldSeq, validateFieldPrelude, installToken,
      resolveRulesOf, readFieldValue, pathIsNested, jsIndex, getNestedValue,
      depOf, depsValuesOf, ruleLoopSeq, LoopRes.consLog, LoopRes.state, LoopRes.log,
      requiredIfRule, minLengthRule,
      resolveValidationResult, jsStrictEq, resolveWildcard,
      isNullUndefOrEmptyStr, jsToString, finishRun, finallyAct, deepClone,
      Value.isFalsy, hlen, he1, he2, hl2, isConditionallyInactive,
      isValidComputed]

/-- C3 (amended): `validateForm` resolves `true` iff every error list left in
the manager's error store after the per-field runs is empty; no field is
excluded, so any non-empty error list at any key — conditionally inactive or
not — makes it resolve `false`. -/
theorem validateForm_nonempty_error_blocks (s0 : VMState)
    (touched0 : SMap FPath Bool) (q : FPath) (fe : List String)
    (hget : SMap.get? (validateFormModel s0 touched0).2.1.errors q = some fe)
    (hne : fe ≠ []) :
    (validateFormModel s0 touched0).1 = false := by
  have hform : (validateFormModel s0 touched0).1
      = (validateFormModel s0 touched0).2.1.errors.values.all
          (fun l => l.isEmpty) := rfl
  rw [hform]
  have hmem := SMap.mem_values_of_get? hget
  rw [List.all_eq_false]
  exact ⟨fe, hmem, by simp [List.isEmpty_eq_false.mpr hne]⟩

set_option maxHeartbeats 2000000 in
/-- The amended theorem's hypotheses hold at `c3State`: the `company` key
holds the non-empty list produced by its `minLength` rule, and the form
resolves `false` there. -/
theorem validateForm_nonempty_error_blocks_witness :
    (SMap.get? (validateFormModel c3State []).2.1.errors ["company"]
       = some ["Company name too short"] ∧
     (["Company name too short"] : List String) ≠ []) ∧
    (validateFormModel c3State []).1 = false := by
  have hget : SMap.get? (validateFormModel c3State []).2.1.errors ["company"]
      = some ["Company name too short"] := by
    have hlen : ¬("ab".isEmpty = true ∨ 5 ≤ "ab".length) := by decide
    have he1 : "ab".isEmpty = false := by decide
    have he2 : "Company name too short".isEmpty = false := by decide
    have hl2 : "ab".length = 2 := by decide
    simp [validateFormModel, c3State, getExpandedRules, expandWildcardPaths,
      pathHasStar, SMap.empty, SMap.set, SMap.get?, SMap.keys, SMap.values,
      SMap.erase, validateFieldSeq, validateFieldPrelude, installToken,
      resolveRulesOf, readFieldValue, pathIsNested, jsIndex, getNestedValue,
      depOf, depsValuesOf, ruleLoopSeq, LoopRes.consLog, LoopRes.state, LoopRes.log,
      requiredIfRule, minLengthRule,
      resolveValidationResult, jsStrictEq, resolveWildcard,
      isNullUndefOrEmptyStr, jsToString, finishRun, finallyAct, deepClone,
      Value.isFalsy, hlen, he1, he2, hl2]
  have hne : (["Company name too short"] : List String) ≠ [] := by simp
  exact ⟨⟨hget, hne⟩,
    validateForm_nonempty_error_blocks c3State [] ["company"]
      ["Company name too short"] hget hne⟩

theorem finallyAct_frame (s : VMState) (p : FPath) (tok : Nat) :
    (finallyAct s p tok).validationCache = s.validationCache ∧
    (finallyAct s p tok).errors = s.errors ∧
    (∀ q, q ≠ p → SMap.get? (finallyAct s p tok).isValidating q
      = SMap.get? s.isValidating q) ∧
    (finallyAct s p tok).values = s.values ∧
    (finallyAct s p tok).rules = s.rules ∧
    (finallyAct s p tok).fieldDependencies = s.fieldDependencies ∧
    (finallyAct s p tok).hasWildcardRules = s.hasWildcardRules := by
  cases hc : (s.abortControllers.get? p == some tok) with
  | true =>
    have hfa : finallyAct s p tok
        = {s with isValidating := s.isValidating.set p false,
                  abortControllers := s.abortControllers.erase p} := by
      rw [finallyAct, if_pos hc]
    rw [hfa]
    exact ⟨rfl, rfl, fun q hq => SMap.get?_set_ne _ _ hq, rfl, rfl, rfl, rfl⟩
  | false =>
    have hfa : finallyAct s p tok = s := by
      rw [finallyAct, if_neg (by rw [hc]; exact Bool.false_ne_true)]
    rw [hfa]
    exact ⟨rfl, rfl, fun _ _ => rfl, rfl, rfl, rfl, rfl⟩

/-- Whatever branch the pre-loop part of `validateField` takes, it touches
only the field's own error entry (and its controller/memo): the cache, the
validating map, and all other fields' errors are untouched, and a handed-off
loop context always carries the field's own path. -/
theorem validateFieldPrelude_frame (s0 : VMState) (p : FPath) :
    (validateFieldPrelude s0 p).st.validationCache = s0.validationCache ∧
    (∀ q, q ≠ p →
      SMap.get? (validateFieldPrelude s0 p).st.errors q
        = SMap.get? s0.errors q) ∧
    (validateFieldPrelude s0 p).st.isValidating = s0.isValidating ∧
    (validateFieldPrelude s0 p).st.values = s0.values ∧
    (validateFieldPrelude s0 p).st.rules = s0.rules ∧
    (validateFieldPrelude s0 p).st.fieldDependencies = s0.fieldDependencies ∧
    (validateFieldPrelude s0 p).st.hasWildcardRules = s0.hasWildcardRules ∧
    (∀ ctx hd dv fr s', validateFieldPrelude s0 p = .toLoop ctx hd dv fr s' →
      ctx.path = p) := by
  obtain ⟨hit2, hitnext, hitp, hitq, hitc, hite, hitv, hitvals, hitr, hitd,
    hithw, hitm, hitab⟩ := installToken_spec s0 p
  simp only [validateFieldPrelude]
  set sA := (installToken s0 p).1 with hsA
  obtain ⟨hf1, hf2, hf3, hf4, hf5, hf6, hf7, hf8, hf9, hf10⟩ :=
    resolveRulesOf_frame sA p
  set sB := (resolveRulesOf sA p).2 with hsB
  have hBc : sB.validationCache = s0.validationCache := hf1.trans hitc
  have hBe : sB.errors = s0.errors := hf2.trans hite
  have hBv : sB.isValidating = s0.isValidating := hf3.trans hitv
  have hBvals : sB.values = s0.values := hf7.trans hitvals
  have hBr : sB.rules = s0.rules := hf8.trans hitr
  have hBd : sB.fieldDependencies = s0.fieldDependencies := hf9.trans hitd
  have hBw : sB.hasWildcardRules = s0.hasWildcardRules := hf10.trans hithw
  cases hre : ((resolveRulesOf sA p).1).isEmpty with
  | true =>
    simp only [hre, if_true]
    cases hctl : (sB.abortControllers.get? p == some (installToken s0 p).2) with
    | true =>
      simp only [hctl, if_true, PreludeRes.st]
      refine ⟨hBc, ?_, hBv, hBvals, hBr, hBd, hBw, ?_⟩
      · intro q hq
        show (sB.errors.set p []).get? q = _
        rw [SMap.get?_set_ne _ _ hq, hBe]
      · intro ctx hd dv fr s' h
        cases h
    | false =>
      simp only [hctl, Bool.false_eq_true, if_false, PreludeRes.st]
      refine ⟨hBc, ?_, hBv, hBvals, hBr, hBd, hBw, ?_⟩
      · intro q hq
        show (sB.errors.set p []).get? q = _
        rw [SMap.get?_set_ne _ _ hq, hBe]
      · intro ctx hd dv fr s' h
        cases h
  | false =>
    simp only [hre, Bool.false_eq_true, if_false]
    cases hcv : SMap.get? sB.validationCache p with
    | none =>
      simp only [hcv, PreludeRes.st]
      refine ⟨hBc, ?_, hBv, hBvals, hBr, hBd, hBw, ?_⟩
      · intro q hq
        rw [hBe]
      · intro ctx hd dv fr s' h
        injection h with h1 h2 h3 h4 h5
        rw [← h1]
    | some cached =>
      simp only [hcv]
      cases hde : (deepEqual cached.value (readFieldValue sB.values p) &&
          deepEqual (cached.depsValues.getD (.vObj []))
            (depsValuesOf sB.fieldDependencies sB.values p)) with
      | true =>
        simp only [hde, if_true]
        cases hctl : (sB.abortControllers.get? p
            == some (installToken s0 p).2) with
        | true =>
          simp only [hctl, if_true, PreludeRes.st]
          refine ⟨hBc, ?_, hBv, hBvals, hBr, hBd, hBw, ?_⟩
          · intro q hq
            show (sB.errors.set p cached.errors).get? q = _
            rw [SMap.get?_set_ne _ _ hq, hBe]
          · intro ctx hd dv fr s' h
            cases h
        | false =>
          simp only [hctl, Bool.false_eq_true, if_false, PreludeRes.st]
          refine ⟨hBc, ?_, hBv, hBvals, hBr, hBd, hBw, ?_⟩
          · intro q hq
            show (sB.errors.set p cached.errors).get? q = _
            rw [SMap.get?_set_ne _ _ hq, hBe]
          · intro ctx hd dv fr s' h
            cases h
      | false =>
        simp only [hde, Bool.false_eq_true, if_false, PreludeRes.st]
        refine ⟨hBc, ?_, hBv, hBvals, hBr, hBd, hBw, ?_⟩
        · intro q hq
          rw [hBe]
        · intro ctx hd dv fr s' h
          injection h with h1 h2 h3 h4 h5
          rw [← h1]

/-- One `validateField` run, whatever happens inside, only ever touches its
own field's cache entry, error list and validating flag; the global
value/rule/dependency tables are untouched, and every rule invocation it
performs is for its own path. -/
theorem validateFieldSeq_frame (s0 : VMState) (p : FPath) :
    (∀ q, q ≠ p →
      SMap.get? (validateFieldSeq s0 p).2.1.validationCache q
        = SMap.get? s0.validationCache q ∧
      SMap.get? (validateFieldSeq s0 p).2.1.errors q
        = SMap.get? s0.errors q ∧
      SMap.get? (validateFieldSeq s0 p).2.1.isValidating q
        = SMap.get? s0.isValidating q) ∧
    (validateFieldSeq s0 p).2.1.values = s0.values ∧
    (validateFieldSeq s0 p).2.1.rules = s0.rules ∧
    (validateFieldSeq s0 p).2.1.fieldDependencies = s0.fieldDependencies ∧
    (validateFieldSeq s0 p).2.1.hasWildcardRules = s0.hasWildcardRules ∧
    (∀ rc ∈ (validateFieldSeq s0 p).2.2, rc.fieldPath = p) := by
  have hframe := validateFieldPrelude_frame s0 p
  cases hpre : validateFieldPrelude s0 p with
  | done res s =>
    rw [hpre] at hframe
    obtain ⟨hc, he, hv, hvals, hr, hd, hw, _⟩ := hframe
    simp only [PreludeRes.st] at hc he hv hvals hr hd hw
    simp only [validateFieldSeq, hpre]
    refine ⟨?_, hvals, hr, hd, hw, ?_⟩
    · intro q hq
      refine ⟨?_, he q hq, ?_⟩
      · show SMap.get? s.validationCache q = _
        rw [hc]
      · show SMap.get? s.isValidating q = _
        rw [hv]
    · intro rc hrc
      cases hrc
  | toLoop ctx hasDep depsValues fieldRules s =>
    rw [hpre] at hframe
    obtain ⟨hc, he, hv, hvals, hr, hd, hw, hpath⟩ := hframe
    simp only [PreludeRes.st] at hc he hv hvals hr hd hw
    have hcp : ctx.path = p := hpath ctx hasDep depsValues fieldRules s rfl
    simp only [validateFieldSeq, hpre]
    cases hab : s.abortedToks.contains ctx.tok with
    | true =>
      simp only [hab, if_true]
      obtain ⟨ha1, ha2, ha3, ha4, ha5, ha6, ha7⟩ := finallyAct_frame s p ctx.tok
      refine ⟨?_, ha4.trans hvals, ha5.trans hr, ha6.trans hd, ha7.trans hw, ?_⟩
      · intro q hq
        refine ⟨?_, ?_, (ha3 q hq).trans ?_⟩
        · show SMap.get? (finallyAct s p ctx.tok).validationCache q = _
          rw [ha1, hc]
        · show SMap.get? (finallyAct s p ctx.tok).errors q = _
          rw [ha2]
          exact he q hq
        · rw [hv]
      · intro rc hrc
        cases hrc
    | false =>
      simp only [hab, Bool.false_eq_true, if_false]
      have hsame0 := ruleLoopSeq_sameBut ctx fieldRules s false 0
      have hlog0 := ruleLoopSeq_log ctx fieldRules s false 0
      cases hloop : ruleLoopSeq ctx s false 0 fieldRules with
      | completed s' fe lg =>
        rw [hloop] at hsame0 hlog0
        have hsame : SameBut ctx.path s s' := hsame0
        rw [hcp] at hsame
        have hlog : ∀ rc ∈ lg, rc.fieldPath = ctx.path ∧ rc.value = ctx.value ∧
            rc.allValues = s.values := hlog0.2
        simp only [finishRun]
        obtain ⟨ha1, ha2, ha3, ha4, ha5, ha6, ha7⟩ :=
          finallyAct_frame {s' with validationCache := s'.validationCache.set ctx.path (CacheEntry.mk (deepClone ctx.value) fe (if hasDep then some (deepClone depsValues) else none)), errors := s'.errors.set ctx.path fe} ctx.path ctx.tok
        refine ⟨?_, ?_, ?_, ?_, ?_, ?_⟩
        · intro q hq
          have hqc : q ≠ ctx.path := by rw [hcp]; exact hq
          refine ⟨?_, ?_, ?_⟩
          · rw [ha1]
            show SMap.get? (s'.validationCache.set ctx.path _) q = _
            rw [SMap.get?_set_ne _ _ hqc, hsame.cache, hc]
          · rw [ha2]
            show SMap.get? (s'.errors.set ctx.path fe) q = _
            rw [SMap.get?_set_ne _ _ hqc, hsame.errs q hq]
            exact he q hq
          · rw [ha3 q hqc]
            show SMap.get? s'.isValidating q = _
            rw [hsame.valing q hq, hv]
        · rw [ha4]
          show s'.values = _
          rw [hsame.values, hvals]
        · rw [ha5]
          show s'.rules = _
          rw [hsame.rules, hr]
        · rw [ha6]
          show s'.fieldDependencies = _
          rw [hsame.deps, hd]
        · rw [ha7]
          show s'.hasWildcardRules = _
          rw [hsame.hasW, hw]
        · intro rc hrc
          rw [← hcp]
          exact (hlog rc hrc).1
      | abortedEarly s' lg =>
        rw [hloop] at hsame0 hlog0
        have hsame : SameBut ctx.path s s' := hsame0
        rw [hcp] at hsame
        have hlog : ∀ rc ∈ lg, rc.fieldPath = ctx.path ∧ rc.value = ctx.value ∧
            rc.allValues = s.values := hlog0.2
        obtain ⟨ha1, ha2, ha3, ha4, ha5, ha6, ha7⟩ := finallyAct_frame s' p ctx.tok
        refine ⟨?_, ?_, ?_, ?_, ?_, ?_⟩
        · intro q hq
          refine ⟨?_, ?_, ?_⟩
          · show SMap.get? (finallyAct s' p ctx.tok).validationCache q = _
            rw [ha1, hsame.cache, hc]
          · show SMap.get? (finallyAct s' p ctx.tok).errors q = _
            rw [ha2, hsame.errs q hq]
            exact he q hq
          · show SMap.get? (finallyAct s' p ctx.tok).isValidating q = _
            rw [ha3 q hq, hsame.valing q hq, hv]
        · show (finallyAct s' p ctx.tok).values = _
          rw [ha4, hsame.values, hvals]
        · show (finallyAct s' p ctx.tok).rules = _
          rw [ha5, hsame.rules, hr]
        · show (finallyAct s' p ctx.tok).fieldDependencies = _
          rw [ha6, hsame.deps, hd]
        · show (finallyAct s' p ctx.tok).hasWildcardRules = _
          rw [ha7, hsame.hasW, hw]
        · intro rc hrc
          rw [← hcp]
          exact (hlog rc hrc).1

theorem getExpandedRules_frame (s : VMState) :
    (getExpandedRules s).2.validationCache = s.validationCache ∧
    (getExpandedRules s).2.errors = s.errors ∧
    (getExpandedRules s).2.isValidating = s.isValidating ∧
    (getExpandedRules s).2.abortControllers = s.abortControllers ∧
    (getExpandedRules s).2.abortedToks = s.abortedToks ∧
    (getExpandedRules s).2.nextTok = s.nextTok ∧
    (getExpandedRules s).2.values = s.values ∧
    (getExpandedRules s).2.rules = s.rules ∧
    (getExpandedRules s).2.fieldDependencies = s.fieldDependencies ∧
    (getExpandedRules s).2.hasWildcardRules = s.hasWildcardRules := by
  rw [getExpandedRules]
  cases hm : s.expandedRulesCache with
  | some m => exact ⟨rfl, rfl, rfl, rfl, rfl, rfl, rfl, rfl, rfl, rfl⟩
  | none => exact ⟨rfl, rfl, rfl, rfl, rfl, rfl, rfl, rfl, rfl, rfl⟩

theorem getExpandedRules_memo (s : VMState) :
    (getExpandedRules s).2.expandedRulesCache = some (getExpandedRules s).1 := by
  rw [getExpandedRules]
  cases hm : s.expandedRulesCache with
  | some m => exact hm
  | none => rfl

theorem getExpandedRules_stable (s t : VMState)
    (hr : t.rules = s.rules) (hv : t.values = s.values)
    (hm : t.expandedRulesCache = s.expandedRulesCache ∨
          t.expandedRulesCache = some (getExpandedRules s).1) :
    (getExpandedRules t).1 = (getExpandedRules s).1 := by
  rcases hm with hm | hm
  · rw [getExpandedRules, getExpandedRules, hm]
    cases hsm : s.expandedRulesCache with
    | some m => rfl
    | none =>
      show expandWildcardPaths t.rules t.values
        = expandWildcardPaths s.rules s.values
      rw [hr, hv]
  · rw [getExpandedRules, hm]

theorem foldErase_get?_not_mem (fs : List FPath) :
    ∀ (m : SMap FPath CacheEntry) (q : FPath), q ∉ fs →
      SMap.get? (List.foldl (fun m0 f => SMap.erase m0 f) m fs) q
        = SMap.get? m q := by
  induction fs with
  | nil => intro m q _; rfl
  | cons f fs ih =>
    intro m q hq
    simp only [List.foldl_cons]
    have hqf : q ≠ f := fun h => hq (h ▸ List.mem_cons_self f fs)
    rw [ih _ q (fun h => hq (List.mem_cons_of_mem f h)),
      SMap.get?_erase_ne _ hqf]

/-- Running `validateField` over a list of fields leaves every field outside
the list untouched, and only logs invocations for fields of the list. -/
theorem foldValidate_frame (fs : List FPath) :
    ∀ (s : VMState) (lg0 : List RuleCall),
      (∀ q, q ∉ fs →
        SMap.get? (List.foldl (fun (acc : VMState × List RuleCall) f =>
            ((validateFieldSeq acc.1 f).2.1,
             acc.2 ++ (validateFieldSeq acc.1 f).2.2)) (s, lg0) fs).1.validationCache q
          = SMap.get? s.validationCache q ∧
        SMap.get? (List.foldl (fun (acc : VMState × List RuleCall) f =>
            ((validateFieldSeq acc.1 f).2.1,
             acc.2 ++ (validateFieldSeq acc.1 f).2.2)) (s, lg0) fs).1.errors q
          = SMap.get? s.errors q ∧
        SMap.get? (List.foldl (fun (acc : VMState × List RuleCall) f =>
            ((validateFieldSeq acc.1 f).2.1,
             acc.2 ++ (validateFieldSeq acc.1 f).2.2)) (s, lg0) fs).1.isValidating q
          = SMap.get? s.isValidating q) ∧
      (∀ rc ∈ (List.foldl (fun (acc : VMState × List RuleCall) f =>
            ((validateFieldSeq acc.1 f).2.1,
             acc.2 ++ (validateFieldSeq acc.1 f).2.2)) (s, lg0) fs).2,
        rc ∈ lg0 ∨ rc.fieldPath ∈ fs) := by
  induction fs with
  | nil =>
    intro s lg0
    exact ⟨fun q _ => ⟨rfl, rfl, rfl⟩, fun rc hrc => Or.inl hrc⟩
  | cons f fs ih =>
    intro s lg0
    simp only [List.foldl_cons]
    obtain ⟨hfr, hlog⟩ :=
      ih ((validateFieldSeq s f).2.1) (lg0 ++ (validateFieldSeq s f).2.2)
    obtain ⟨hq1, hvals, hr, hd, hw, hlg⟩ := validateFieldSeq_frame s f
    constructor
    · intro q hq
      have hqf : q ≠ f := fun h => hq (h ▸ List.mem_cons_self f fs)
      have hqfs : q ∉ fs := fun h => hq (List.mem_cons_of_mem f h)
      obtain ⟨hc1, he1, hv1⟩ := hfr q hqfs
      obtain ⟨hc0, he0, hv0⟩ := hq1 q hqf
      exact ⟨hc1.trans hc0, he1.trans he0, hv1.trans hv0⟩
    · intro rc hrc
      rcases hlog rc hrc with hmem | hin
      · rcases List.mem_append.mp hmem with h0 | hf
        · exact Or.inl h0
        · exact Or.inr (by rw [hlg rc hf]; exact List.mem_cons_self f fs)
      · exact Or.inr (List.mem_cons_of_mem f hin)

theorem gdfMatch_iff (c : FPath) (dep : FieldDep) :
    (dep.dependsOn.any (fun d => if d = c then true
      else if pathHasStar d then matchesWildcard d c else false)) = true ↔
    ∃ d ∈ dep.dependsOn, d = c ∨
      (pathHasStar d = true ∧ matchesWildcard d c = true) := by
  rw [List.any_eq_true]
  constructor
  · rintro ⟨d, hd, hflag⟩
    refine ⟨d, hd, ?_⟩
    by_cases h : d = c
    · exact Or.inl h
    · rw [if_neg h] at hflag
      cases hs : pathHasStar d with
      | false =>
        rw [if_neg (by rw [hs]; exact Bool.false_ne_true)] at hflag
        cases hflag
      | true =>
        rw [if_pos hs] at hflag
        exact Or.inr ⟨rfl, hflag⟩
  · rintro ⟨d, hd, hcase⟩
    refine ⟨d, hd, ?_⟩
    rcases hcase with rfl | ⟨hs, hm⟩
    · rw [if_pos rfl]
    · by_cases h : d = c
      · rw [if_pos h]
      · rw [if_neg h, if_pos hs]
        exact hm

theorem gdf_fold (s : VMState) (c : FPath) :
    ∀ (l : List FieldDep) (acc : List FPath × VMState),
      GDFInv s acc →
      GDFInv s (List.foldl (gdfStep c) acc l) ∧
      (∀ f, f ∈ (List.foldl (gdfStep c) acc l).1 ↔
        f ∈ acc.1 ∨ ∃ dep ∈ l, DepContrib s c f dep) := by
  intro l
  induction l with
  | nil =>
    intro acc hinv
    exact ⟨hinv, fun f => by simp⟩
  | cons dep l ih =>
    intro acc hinv
    simp only [List.foldl_cons]
    have hstep : GDFInv s (gdfStep c acc dep) ∧
        (∀ f, f ∈ (gdfStep c acc dep).1 ↔
          f ∈ acc.1 ∨ DepContrib s c f dep) := by
      rw [gdfStep]
      cases hm : (dep.dependsOn.any (fun d => if d = c then true
          else if pathHasStar d then matchesWildcard d c else false)) with
      | false =>
        simp only [hm, Bool.not_false, if_true]
        refine ⟨hinv, fun f => ?_⟩
        constructor
        · exact Or.inl
        · rintro (h | ⟨⟨d, hd, hcase⟩, _⟩)
          · exact h
          · have hco := (gdfMatch_iff c dep).mpr ⟨d, hd, hcase⟩
            rw [hm] at hco
            cases hco
      | true =>
        simp only [hm, Bool.not_true, Bool.false_eq_true, if_false]
        have hdm := (gdfMatch_iff c dep).mp hm
        cases hsf : pathHasStar dep.field with
        | true =>
          simp only [hsf, if_true]
          obtain ⟨g1, g2, g3, g4, g5, g6, g7, g8, g9, g10⟩ :=
            getExpandedRules_frame acc.2
          obtain ⟨i1, i2, i3, i4, i5, i6, i7, i8, i9, i10, i11⟩ := hinv
          have hstable : (getExpandedRules acc.2).1 = (getExpandedRules s).1 :=
            getExpandedRules_stable s acc.2 i8 i7 i11
          refine ⟨⟨g1.trans i1, g2.trans i2, g3.trans i3, g4.trans i4,
            g5.trans i5, g6.trans i6, g7.trans i7, g8.trans i8, g9.trans i9,
            g10.trans i10,
            Or.inr (by rw [getExpandedRules_memo acc.2, hstable])⟩, ?_⟩
          intro f
          simp only [List.mem_append, List.mem_filter]
          constructor
          · rintro (h | ⟨hk, hmw⟩)
            · exact Or.inl h
            · refine Or.inr ⟨hdm, Or.inr ⟨hsf, ?_, hmw⟩⟩
              rw [← hstable]
              exact hk
          · rintro (h | ⟨_, hcase⟩)
            · exact Or.inl h
            · rcases hcase with ⟨hnostar, _⟩ | ⟨_, hk, hmw⟩
              · rw [hsf] at hnostar
                cases hnostar
              · refine Or.inr ⟨?_, hmw⟩
                rw [hstable]
                exact hk
        | false =>
          simp only [hsf, Bool.false_eq_true, if_false]
          refine ⟨hinv, fun f => ?_⟩
          simp only [List.mem_append, List.mem_singleton]
          constructor
          · rintro (h | rfl)
            · exact Or.inl h
            · exact Or.inr ⟨hdm, Or.inl ⟨hsf, rfl⟩⟩
          · rintro (h | ⟨_, hcase⟩)
            · exact Or.inl h
            · rcases hcase with ⟨_, rfl⟩ | ⟨hstar, _, _⟩
              · exact Or.inr rfl
              · rw [hsf] at hstar
                cases hstar
    obtain ⟨hinv1, hmem1⟩ := hstep
    obtain ⟨hinv2, hmem2⟩ := ih (gdfStep c acc dep) hinv1
    refine ⟨hinv2, fun f => ?_⟩
    rw [hmem2 f]
    constructor
    · rintro (h1 | ⟨dep', hdep', hco⟩)
      · rcases (hmem1 f).mp h1 with h | hco
        · exact Or.inl h
        · exact Or.inr ⟨dep, List.mem_cons_self dep l, hco⟩
      · exact Or.inr ⟨dep', List.mem_cons_of_mem dep hdep', hco⟩
    · rintro (h | ⟨dep', hdep', hco⟩)
      · exact Or.inl ((hmem1 f).mpr (Or.inl h))
      · rcases List.mem_cons.mp hdep' with rfl | htail
        · exact Or.inl ((hmem1 f).mpr (Or.inr hco))
        · exact Or.inr ⟨dep', htail, hco⟩

/-- `getDependentFields` leaves the state untouched except possibly the
expansion memo, and returns exactly the dependents the dependency graph
yields for the changed field. -/
theorem getDependentFields_spec0 (s : VMState) (c : FPath) :
    GDFInv s (getDependentFields s c) ∧
    (∀ f, f ∈ (getDependentFields s c).1 ↔
      ∃ dep ∈ s.fieldDependencies, DepContrib s c f dep) := by
  have heq : getDependentFields s c
      = List.foldl (gdfStep c) ([], s) s.fieldDependencies := rfl
  have h := gdf_fold s c s.fieldDependencies ([], s)
    ⟨rfl, rfl, rfl, rfl, rfl, rfl, rfl, rfl, rfl, rfl, Or.inl rfl⟩
  rw [heq]
  exact ⟨h.1, fun f => (h.2 f).trans (by simp)⟩

/-- C5: dependent-field propagation.  The dependents of a changed field are
exactly those the dependency graph yields (exact match or wildcard match,
wildcard dependents expanded to the matching expanded-rule keys); only the
dependents marked touched are kept; when none is kept nothing happens at all
(beyond the expansion memo); every rule invocation performed belongs to a
kept dependent; and any field that is not a kept dependent keeps its cache
entry, error list and validating flag untouched — in particular untouched
dependents are neither cache-invalidated nor validated. -/
theorem validateDependentFields_spec (s0 : VMState) (c : FPath)
    (touched : SMap FPath Bool) :
    ∃ dependents kept,
      dependents = (getDependentFields s0 c).1 ∧
      kept = dependents.filter (fun f => ((SMap.get? touched f).getD false)) ∧
      (∀ f, f ∈ dependents ↔
        ∃ dep ∈ s0.fieldDependencies, DepContrib s0 c f dep) ∧
      (∀ q, q ∉ kept →
        SMap.get? (validateDependentFields s0 c touched).1.validationCache q
          = SMap.get? s0.validationCache q ∧
        SMap.get? (validateDependentFields s0 c touched).1.errors q
          = SMap.get? s0.errors q ∧
        SMap.get? (validateDependentFields s0 c touched).1.isValidating q
          = SMap.get? s0.isValidating q) ∧
      (∀ rc ∈ (validateDependentFields s0 c touched).2, rc.fieldPath ∈ kept) ∧
      (kept.isEmpty = true →
        validateDependentFields s0 c touched
          = ((getDependentFields s0 c).2, [])) := by
  obtain ⟨⟨i1, i2, i3, i4, i5, i6, i7, i8, i9, i10, i11⟩, hmem⟩ :=
    getDependentFields_spec0 s0 c
  set D := getDependentFields s0 c with hD
  set kept := D.1.filter (fun f => ((SMap.get? touched f).getD false)) with hkept
  refine ⟨D.1, kept, rfl, hkept, hmem, ?_⟩
  cases hk : kept.isEmpty with
  | true =>
    rw [hkept] at hk
    have hvd : validateDependentFields s0 c touched = (D.2, []) := by
      rw [validateDependentFields, if_pos hk]
    refine ⟨?_, ?_, ?_⟩
    · intro q hq
      rw [hvd]
      exact ⟨congrArg (fun m => SMap.get? m q) i1,
        congrArg (fun m => SMap.get? m q) i2,
        congrArg (fun m => SMap.get? m q) i3⟩
    · intro rc hrc
      rw [hvd] at hrc
      cases hrc
    · intro _
      exact hvd
  | false =>
    rw [hkept] at hk
    have hvd : validateDependentFields s0 c touched
        = List.foldl (fun (acc : VMState × List RuleCall) f => ((validateFieldSeq acc.1 f).2.1, acc.2 ++ (validateFieldSeq acc.1 f).2.2)) ({D.2 with validationCache := List.foldl (fun m0 f => SMap.erase m0 f) D.2.validationCache kept}, []) kept := by
      rw [validateDependentFields,
        if_neg (by rw [hk]; exact Bool.false_ne_true)]
    obtain ⟨hfr, hlog⟩ := foldValidate_frame kept
      ({D.2 with validationCache := List.foldl (fun m0 f => SMap.erase m0 f) D.2.validationCache kept}) []
    refine ⟨?_, ?_, ?_⟩
    · intro q hq
      rw [hvd]
      obtain ⟨hc1, he1, hv1⟩ := hfr q hq
      refine ⟨hc1.trans ?_, he1.trans ?_, hv1.trans ?_⟩
      · show SMap.get? (List.foldl (fun m0 f => SMap.erase m0 f)
            D.2.validationCache kept) q = _
        rw [foldErase_get?_not_mem kept _ q hq, i1]
      · show SMap.get? D.2.errors q = _
        rw [i2]
      · show SMap.get? D.2.isValidating q = _
        rw [i3]
    · intro rc hrc
      rw [hvd] at hrc
      rcases hlog rc hrc with h0 | hin
      · cases h0
      · exact hin
    · intro hki
      cases hki

/-- The rule loop on a pass-prefix followed by a failing rule: every prefix
rule and the failing rule are invoked, in declared order with the run's
value and the current values as arguments, the failing rule's messages are
the final error list, and no rule after it is invoked. -/
theorem ruleLoopSeq_first_failure (ctx : LoopCtx) (post : List VRule)
    (failRule : VRule) (errs : List String) :
    ∀ (pre : List VRule) (s : VMState) (va : Bool) (idx : Nat),
      s.abortedToks.contains ctx.tok = false →
      (∀ r ∈ pre, RulePasses ctx s.values r) →
      RuleFails ctx s.values failRule errs →
      ∃ s', ruleLoopSeq ctx s va idx (pre ++ failRule :: post)
          = .completed s' errs
            ((List.range' idx (pre.length + 1)).map
              (fun i => ⟨ctx.path, i, ctx.value, s.values⟩)) := by
  intro pre
  induction pre with
  | nil =>
    intro s va idx hab _ hfail
    rw [List.nil_append, ruleLoopSeq]
    rcases hfail with ⟨msg, hrun, he⟩ | ⟨res, hrun, hne, he⟩ |
      ⟨msg, hrun, he⟩ | ⟨res, hrun, hne, he⟩
    · simp only [hrun, he, List.length_nil, List.range'_one, List.map_cons,
        List.map_nil]
      exact ⟨s, rfl⟩
    · simp only [hrun, hne, Bool.false_eq_true, if_false, he,
        List.length_nil, List.range'_one, List.map_cons, List.map_nil]
      exact ⟨s, rfl⟩
    · simp only [hrun, he, List.length_nil, List.range'_one, List.map_cons,
        List.map_nil]
      exact ⟨_, rfl⟩
    · simp only [hrun]
      cases va with
      | false =>
        simp only [Bool.not_false, if_true, hab, Bool.false_eq_true,
          if_false, hne, he, List.length_nil, List.range'_one,
          List.map_cons, List.map_nil]
        exact ⟨_, rfl⟩
      | true =>
        simp only [Bool.not_true, Bool.false_eq_true, if_false, hab, hne,
          he, List.length_nil, List.range'_one, List.map_cons, List.map_nil]
        exact ⟨_, rfl⟩
  | cons r pre ih =>
    intro s va idx hab hpass hfail
    rw [List.cons_append, ruleLoopSeq]
    rcases hpass r (List.mem_cons_self r pre) with ⟨res, hrun, hres⟩ |
      ⟨res, hrun, hres⟩
    · simp only [hrun, hres, if_true]
      obtain ⟨s', hrec⟩ := ih s va (idx + 1) hab
        (fun r2 h2 => hpass r2 (List.mem_cons_of_mem r h2)) hfail
      rw [hrec]
      refine ⟨s', ?_⟩
      simp only [LoopRes.consLog, List.length_cons, List.range'_succ,
        List.map_cons]
    · cases va with
      | true =>
        simp only [hrun, Bool.not_true, Bool.false_eq_true, if_false, hab,
          hres, if_true]
        obtain ⟨s', hrec⟩ := ih s true (idx + 1) hab
          (fun r2 h2 => hpass r2 (List.mem_cons_of_mem r h2)) hfail
        rw [hrec]
        refine ⟨s', ?_⟩
        simp only [LoopRes.consLog, List.length_cons, List.range'_succ,
          List.map_cons]
      | false =>
        simp only [hrun, Bool.not_false, if_true, hab, Bool.false_eq_true,
          if_false, hres]
        obtain ⟨s', hrec⟩ := ih
          {s with errors := s.errors.set ctx.path [], isValidating := s.isValidating.set ctx.path true}
          true (idx + 1) hab
          (fun r2 h2 => hpass r2 (List.mem_cons_of_mem r h2)) hfail
        rw [hrec]
        refine ⟨s', ?_⟩
        simp only [LoopRes.consLog, List.length_cons, List.range'_succ,
          List.map_cons]

/-- A cache-missing `validateField` run over a pass-prefix followed by a
failing rule: the returned error list is the failing rule's messages, the
invocation log is exactly the prefix rules and the failing rule in declared
order (nothing after it), and only the field's own error entry changes. -/
theorem validateFieldSeq_firstFail (s0 : VMState) (p : FPath)
    (pre post : List VRule) (failRule : VRule) (errs : List String)
    (htok : TokensOk s0)
    (hcache : SMap.get? s0.validationCache p = none)
    (hsplit : (resolveRulesOf s0 p).1 = pre ++ failRule :: post)
    (hpass : ∀ r ∈ pre,
      RulePasses ⟨p, s0.nextTok, readFieldValue s0.values p⟩ s0.values r)
    (hfail : RuleFails ⟨p, s0.nextTok, readFieldValue s0.values p⟩
      s0.values failRule errs) :
    ∃ sF, validateFieldSeq s0 p
        = (errs, sF, (List.range' 0 (pre.length + 1)).map
            (fun i => ⟨p, i, readFieldValue s0.values p, s0.values⟩)) ∧
      SMap.get? sF.errors p = some errs ∧
      (∀ q, q ≠ p → SMap.get? sF.errors q = SMap.get? s0.errors q) := by
  have hrules : ((resolveRulesOf s0 p).1).isEmpty = false := by
    rw [hsplit]
    cases pre <;> rfl
  obtain ⟨sB, hpre, hBcache, hBerrs, hBval, hBctrlp, hBctrlq, hBnext, hBvals,
    hBrules, hBdeps, hBhw, hBmemo, hBabo, hBtok⟩ :=
    validateFieldPrelude_miss s0 p hcache hrules
  obtain ⟨htokB, hcontB⟩ := hBtok htok
  obtain ⟨s', hloop⟩ := ruleLoopSeq_first_failure
    ⟨p, s0.nextTok, readFieldValue s0.values p⟩ post failRule errs pre sB
    false 0 hcontB (by rw [hBvals]; exact hpass) (by rw [hBvals]; exact hfail)
  rw [hBvals] at hloop
  have hloop' : ruleLoopSeq ⟨p, s0.nextTok, readFieldValue s0.values p⟩ sB
      false 0 ((resolveRulesOf s0 p).1) = .completed s' errs
        ((List.range' 0 (pre.length + 1)).map
          (fun i => ⟨p, i, readFieldValue s0.values p, s0.values⟩)) := by
    rw [hsplit]
    exact hloop
  have hsame0 := ruleLoopSeq_sameBut ⟨p, s0.nextTok, readFieldValue s0.values p⟩
    ((resolveRulesOf s0 p).1) sB false 0
  rw [hloop'] at hsame0
  have hsame : SameBut p sB s' := hsame0
  have hctrl' : s'.abortControllers.get? p = some s0.nextTok := by
    rw [hsame.ctrl]
    exact hBctrlp
  simp only [validateFieldSeq, hpre, hcontB, Bool.false_eq_true, if_false,
    hloop']
  simp only [finishRun]
  rw [finallyAct]
  rw [if_pos (by show (s'.abortControllers.get? p == some s0.nextTok) = true; rw [hctrl']; exact beq_self_eq_true _)]
  refine ⟨_, rfl, ?_, ?_⟩
  · show (s'.errors.set p errs).get? p = some errs
    rw [SMap.get?_set_self]
  · intro q hq
    show (s'.errors.set p errs).get? q = _
    rw [SMap.get?_set_ne _ _ hq, hsame.errs q hq, hBerrs]

/-- C6: in a cache-missing `validateField(p)` run, the rules are invoked in
declared order with arguments `(value, allValues, p)`, and the first rule
whose synchronous or awaited result is non-empty ends the run: its messages
become the final error list and no later rule is invoked — the run's
invocation log is exactly the pass-prefix and the failing rule, with
consecutive indices from 0. -/
theorem validateField_rule_order (s0 : VMState) (p : FPath)
    (pre post : List VRule) (failRule : VRule) (errs : List String)
    (htok : TokensOk s0)
    (hcache : SMap.get? s0.validationCache p = none)
    (hsplit : (resolveRulesOf s0 p).1 = pre ++ failRule :: post)
    (hpass : ∀ r ∈ pre,
      RulePasses ⟨p, s0.nextTok, readFieldValue s0.values p⟩ s0.values r)
    (hfail : RuleFails ⟨p, s0.nextTok, readFieldValue s0.values p⟩
      s0.values failRule errs) :
    ∃ sF, validateFieldSeq s0 p
        = (errs, sF, (List.range' 0 (pre.length + 1)).map
            (fun i => ⟨p, i, readFieldValue s0.values p, s0.values⟩)) ∧
      SMap.get? sF.errors p = some errs := by
  obtain ⟨sF, h1, h2, _⟩ := validateFieldSeq_firstFail s0 p pre post failRule
    errs htok hcache hsplit hpass hfail
  exact ⟨sF, h1, h2⟩

/-- The rule-order theorem's hypotheses hold at `c3State` for the `company`
field: its `requiredIf` rule passes (condition unmet) and its `minLength`
rule fails, so the run returns exactly the `minLength` message after
invoking both rules in order. -/
theorem validateField_rule_order_witness :
    (TokensOk c3State ∧
     SMap.get? c3State.validationCache ["company"] = none ∧
     (resolveRulesOf c3State ["company"]).1
       = [requiredIfRule ["type"] (.vStr "business") "Company is required"]
         ++ minLengthRule 5 "Company name too short" :: [] ∧
     (∀ r ∈ [requiredIfRule ["type"] (.vStr "business") "Company is required"],
       RulePasses ⟨["company"], c3State.nextTok,
         readFieldValue c3State.values ["company"]⟩ c3State.values r) ∧
     RuleFails ⟨["company"], c3State.nextTok,
       readFieldValue c3State.values ["company"]⟩ c3State.values
       (minLengthRule 5 "Company name too short")
       ["Company name too short"]) ∧
    (∃ sF, validateFieldSeq c3State ["company"]
        = (["Company name too short"], sF,
           (List.range' 0
             ([requiredIfRule ["type"] (.vStr "business")
                "Company is required"].length + 1)).map
             (fun i => ⟨["company"], i,
               readFieldValue c3State.values ["company"], c3State.values⟩)) ∧
      SMap.get? sF.errors ["company"]
        = some ["Company name too short"]) := by
  have htok : TokensOk c3State :=
    ⟨fun t ht => absurd ht (List.not_mem_nil t),
     fun q t h => by simp [SMap.get?, c3State] at h⟩
  have hcache : SMap.get? c3State.validationCache ["company"] = none := rfl
  have hsplit : (resolveRulesOf c3State ["company"]).1
      = [requiredIfRule ["type"] (.vStr "business") "Company is required"]
        ++ minLengthRule 5 "Company name too short" :: [] := rfl
  have hpass : ∀ r ∈ [requiredIfRule ["type"] (.vStr "business")
      "Company is required"],
      RulePasses ⟨["company"], c3State.nextTok,
        readFieldValue c3State.values ["company"]⟩ c3State.values r := by
    intro r hr
    rcases List.mem_singleton.mp hr with rfl
    exact Or.inl ⟨.vNull, rfl, rfl⟩
  have hfail : RuleFails ⟨["company"], c3State.nextTok,
      readFieldValue c3State.values ["company"]⟩ c3State.values
      (minLengthRule 5 "Company name too short")
      ["Company name too short"] := by
    refine Or.inr (Or.inl ⟨.vStr "Company name too short", ?_, rfl, rfl⟩)
    have hl2 : ("ab".length) = 2 := by decide
    have he1 : ("ab".isEmpty) = false := by decide
    simp [minLengthRule, jsToString, Value.isFalsy, c3State, readFieldValue,
      pathIsNested, jsIndex, hl2, he1]
  exact ⟨⟨htok, hcache, hsplit, hpass, hfail⟩,
    validateField_rule_order c3State ["company"]
      [requiredIfRule ["type"] (.vStr "business") "Company is required"]
      [] (minLengthRule 5 "Company name too short")
      ["Company name too short"] htok hcache hsplit hpass hfail⟩

/-- C7: a throwing rule (or a rejecting pending result) at any position after
a pass-prefix is caught inside the executor — `validateField` still returns
normally — and is converted to exactly one error message that becomes the
field's error list; no rule after it is invoked (the log stops at it), and
no other field's error list changes. -/
theorem validateField_throw_caught (s0 : VMState) (p : FPath)
    (pre post : List VRule) (thrower : VRule) (msg : String)
    (htok : TokensOk s0)
    (hcache : SMap.get? s0.validationCache p = none)
    (hsplit : (resolveRulesOf s0 p).1 = pre ++ thrower :: post)
    (hpass : ∀ r ∈ pre,
      RulePasses ⟨p, s0.nextTok, readFieldValue s0.values p⟩ s0.values r)
    (hthrow : thrower.run (readFieldValue s0.values p) s0.values p
        = .sync (.error msg) ∨
      thrower.run (readFieldValue s0.values p) s0.values p
        = .async (.error msg)) :
    ∃ sF, validateFieldSeq s0 p
        = ([msg], sF, (List.range' 0 (pre.length + 1)).map
            (fun i => ⟨p, i, readFieldValue s0.values p, s0.values⟩)) ∧
      SMap.get? sF.errors p = some [msg] ∧
      (∀ q, q ≠ p → SMap.get? sF.errors q = SMap.get? s0.errors q) := by
  have hfail : RuleFails ⟨p, s0.nextTok, readFieldValue s0.values p⟩
      s0.values thrower [msg] := by
    rcases hthrow with h | h
    · exact Or.inl ⟨msg, h, rfl⟩
    · exact Or.inr (Or.inr (Or.inl ⟨msg, h, rfl⟩))
  exact validateFieldSeq_firstFail s0 p pre post thrower [msg] htok hcache
    hsplit hpass hfail

/-- The throw-catching theorem's hypotheses hold at `c7State`, whose single
rule for `name` throws `"boom"`: the run returns `["boom"]`, records it as
the field's error list, and the unrelated `other` error entry is kept. -/
theorem validateField_throw_caught_witness :
    (TokensOk c7State ∧
     SMap.get? c7State.validationCache ["name"] = none ∧
     (resolveRulesOf c7State ["name"]).1 = [] ++ throwRule "boom" :: [] ∧
     (∀ r ∈ ([] : List VRule),
       RulePasses ⟨["name"], c7State.nextTok,
         readFieldValue c7State.values ["name"]⟩ c7State.values r) ∧
     ((throwRule "boom").run (readFieldValue c7State.values ["name"])
         c7State.values ["name"] = .sync (.error "boom") ∨
      (throwRule "boom").run (readFieldValue c7State.values ["name"])
         c7State.values ["name"] = .async (.error "boom"))) ∧
    (∃ sF, validateFieldSeq c7State ["name"]
        = (["boom"], sF, (List.range' 0 (List.length ([] : List VRule) + 1)).map
            (fun i => ⟨["name"], i,
              readFieldValue c7State.values ["name"], c7State.values⟩)) ∧
      SMap.get? sF.errors ["name"] = some ["boom"] ∧
      (∀ q, q ≠ ["name"] → SMap.get? sF.errors q
        = SMap.get? c7State.errors q)) := by
  have htok : TokensOk c7State :=
    ⟨fun t ht => absurd ht (List.not_mem_nil t),
     fun q t h => by simp [SMap.get?, c7State] at h⟩
  have hcache : SMap.get? c7State.validationCache ["name"] = none := rfl
  have hsplit : (resolveRulesOf c7State ["name"]).1
      = [] ++ throwRule "boom" :: [] := rfl
  have hpass : ∀ r ∈ ([] : List VRule),
      RulePasses ⟨["name"], c7State.nextTok,
        readFieldValue c7State.values ["name"]⟩ c7State.values r :=
    fun r hr => absurd hr (List.not_mem_nil r)
  have hthrow : (throwRule "boom").run (readFieldValue c7State.values ["name"])
      c7State.values ["name"] = .sync (.error "boom") ∨
      (throwRule "boom").run (readFieldValue c7State.values ["name"])
      c7State.values ["name"] = .async (.error "boom") := Or.inl rfl
  exact ⟨⟨htok, hcache, hsplit, hpass, hthrow⟩,
    validateField_throw_caught c7State ["name"] [] [] (throwRule "boom")
      "boom" htok hcache hsplit hpass hthrow⟩

set_option maxHeartbeats 2000000 in
/-- C2 counterexample: the first `validateField` call suspends awaiting its
rule's promise; the value is edited and a second call runs to completion,
leaving no errors; then the first run's promise rejects.  The superseded
first run is caught by the per-rule `catch` BEFORE the post-await abort
check: its promise resolves to `["boom"]` (not `[]`), and it overwrites the
shared error map and the validation cache, clobbering the second run's
outcome. -/
theorem validateField_supersession_counterexample :
    validateFieldStart c2State ["name"]
      = .suspended c2Cont c2Mid [⟨["name"], 0, .vStr "bad", c2State.values⟩] ∧
    (validateFieldSeq c2MidEdited ["name"]).1 = [] ∧
    SMap.get? (validateFieldSeq c2MidEdited ["name"]).2.1.errors ["name"]
      = some [] ∧
    (validateFieldSeq c2MidEdited ["name"]).2.1.abortedToks = [0] ∧
    SMap.get? (validateFieldSeq c2MidEdited ["name"]).2.1.abortControllers
      ["name"] = none ∧
    (validateFieldResume (validateFieldSeq c2MidEdited ["name"]).2.1 c2Cont).1
      = ["boom"] ∧
    SMap.get? (validateFieldResume (validateFieldSeq c2MidEdited ["name"]).2.1
        c2Cont).2.1.errors ["name"] = some ["boom"] ∧
    SMap.get? (validateFieldResume (validateFieldSeq c2MidEdited ["name"]).2.1
        c2Cont).2.1.validationCache ["name"]
      = some ⟨.vStr "bad", ["boom"], none⟩ := by
  refine ⟨?_, ?_, ?_, ?_, ?_, ?_, ?_, ?_⟩ <;>
    simp [validateFieldStart, validateFieldSeq, validateFieldResume,
      validateFieldPrelude, installToken, resolveRulesOf, readFieldValue,
      pathIsNested, jsIndex, getNestedValue, depOf, depsValuesOf,
      ruleLoopStart, ruleLoopSeq, LoopStartRes.consLog, LoopRes.consLog,
      LoopRes.state, LoopRes.log, flakyRule, jsStrictEq,
      resolveValidationResult, finishRun, finallyAct, deepClone,
      Value.isFalsy, SMap.get?, SMap.set, SMap.erase, SMap.empty,
      c2State, c2Mid, c2Cont, c2MidEdited]

/-- C2 (amended): a superseded run whose awaited promise FULFILLS discards
its result: it observes its aborted token right after the await, resolves to
the empty list, and — because its controller is no longer the current one —
performs no write at all: the state (errors, validating flags, cache,
everything) is returned untouched. -/
theorem validateFieldResume_superseded (s : VMState) (rc : RunCont)
    (res : Value) (hpend : rc.pending = .ok res)
    (haborted : s.abortedToks.contains rc.ctx.tok = true)
    (hctrl : (s.abortControllers.get? rc.ctx.path == some rc.ctx.tok)
      = false) :
    validateFieldResume s rc = ([], s, []) := by
  rw [validateFieldResume]
  simp only [hpend, haborted, if_true]
  rw [finallyAct, if_neg (by rw [hctrl]; exact Bool.false_ne_true)]

set_option maxHeartbeats 2000000 in
/-- The amended theorem's hypotheses hold at the supersession scenario's
state: after the second call completes, the first run's token `0` is in the
aborted set and its controller is gone, so resuming it with a fulfilled
promise returns the empty list and the state unchanged. -/
theorem validateFieldResume_superseded_witness :
    ((⟨⟨["name"], 0, .vStr "bad"⟩, false, .vObj [], .ok .vNull, 1, []⟩
        : RunCont).pending = .ok .vNull ∧
     ((validateFieldSeq c2MidEdited ["name"]).2.1.abortedToks.contains 0)
       = true ∧
     (((validateFieldSeq c2MidEdited ["name"]).2.1.abortControllers.get?
         ["name"]) == some 0) = false) ∧
    validateFieldResume (validateFieldSeq c2MidEdited ["name"]).2.1
        ⟨⟨["name"], 0, .vStr "bad"⟩, false, .vObj [], .ok .vNull, 1, []⟩
      = ([], (validateFieldSeq c2MidEdited ["name"]).2.1, []) := by
  have hpend : (⟨⟨["name"], 0, .vStr "bad"⟩, false, .vObj [], .ok .vNull, 1,
      []⟩ : RunCont).pending = .ok .vNull := rfl
  have haborted : ((validateFieldSeq c2MidEdited ["name"]).2.1.abortedToks.contains 0)
      = true := by
    simp [validateFieldSeq, validateFieldPrelude, installToken,
      resolveRulesOf, readFieldValue, pathIsNested, jsIndex, getNestedValue,
      depOf, depsValuesOf, ruleLoopSeq, LoopRes.consLog, LoopRes.state,
      LoopRes.log, flakyRule, jsStrictEq, resolveValidationResult, finishRun,
      finallyAct, deepClone, Value.isFalsy, SMap.get?, SMap.set, SMap.erase,
      SMap.empty, c2Mid, c2MidEdited]
  have hctrl : (((validateFieldSeq c2MidEdited ["name"]).2.1.abortControllers.get?
      ["name"]) == some 0) = false := by
    simp [validateFieldSeq, validateFieldPrelude, installToken,
      resolveRulesOf, readFieldValue, pathIsNested, jsIndex, getNestedValue,
      depOf, depsValuesOf, ruleLoopSeq, LoopRes.consLog, LoopRes.state,
      LoopRes.log, flakyRule, jsStrictEq, resolveValidationResult, finishRun,
      finallyAct, deepClone, Value.isFalsy, SMap.get?, SMap.set, SMap.erase,
      SMap.empty, c2Mid, c2MidEdited]
  exact ⟨⟨hpend, haborted, hctrl⟩,
    validateFieldResume_superseded (validateFieldSeq c2MidEdited ["name"]).2.1
      ⟨⟨["name"], 0, .vStr "bad"⟩, false, .vObj [], .ok .vNull, 1, []⟩
      .vNull hpend haborted hctrl⟩

